import Mathlib

/-!
Verification development for a PDF-outline extraction system.

The repository consists of several pipeline variants (main.py, main2.py,
main6.py, main7.py, process_pdfs.py).  Each variant is shallowly embedded
below in its own namespace, translating the Python functions into
executable Lean definitions.  Python floats are modeled by the exact
fraction type `Frac` (no rounding; boundary behaviour of IEEE floats can
differ from exact arithmetic only when a comparison lands exactly on a
threshold, which none of the statements below depend on).  Python strings
are modeled as `String` over their character lists; `unicodedata`
normalization is the identity on the ASCII inputs treated here and is
modeled as such.  Python dictionaries are modeled as insertion-ordered
association lists, and Python's stable `sort` as insertion sort with a
non-strict (total, transitive) relation, which has the same stable
semantics.
-/

set_option maxRecDepth 4000

namespace PdfOut

/-- Exact fraction with integer numerator and denominator, standing in for
Python floats.  Invariant maintained by all constructions in this file:
the denominator is positive; comparison and arithmetic are the usual
cross-multiplication formulas (no gcd normalization, so every operation
is kernel-computable). -/
structure Frac where
  num : Int
  den : Int
  deriving Repr, DecidableEq

/-- Embed an integer as a fraction. -/
def Frac.ofInt (n : Int) : Frac := ⟨n, 1⟩

/-- Value equality of fractions (cross multiplication). -/
def Frac.beq (a b : Frac) : Bool := a.num * b.den == b.num * a.den

/-- Less-or-equal on fractions with positive denominators. -/
def Frac.ble (a b : Frac) : Bool := decide (a.num * b.den ≤ b.num * a.den)

/-- Strictly-less on fractions with positive denominators. -/
def Frac.blt (a b : Frac) : Bool := decide (a.num * b.den < b.num * a.den)

/-- Addition of fractions. -/
def Frac.add (a b : Frac) : Frac := ⟨a.num * b.den + b.num * a.den, a.den * b.den⟩

/-- Subtraction of fractions. -/
def Frac.sub (a b : Frac) : Frac := ⟨a.num * b.den - b.num * a.den, a.den * b.den⟩

/-- Multiplication of fractions. -/
def Frac.mul (a b : Frac) : Frac := ⟨a.num * b.num, a.den * b.den⟩

/-- Division of fractions (meaningful when the divisor is positive, the
only case arising below; a non-positive divisor yields junk where Python
would raise or produce a negative-denominator value). -/
def Frac.div (a b : Frac) : Frac := ⟨a.num * b.den, a.den * b.num⟩

/-- The larger of two fractions, as Python's max. -/
def Frac.fmax (a b : Frac) : Frac := if Frac.ble a b then b else a

/-- Sum of a list of fractions. -/
def Frac.sum (l : List Frac) : Frac := l.foldl Frac.add (Frac.ofInt 0)

/-- Floor of a fraction with positive denominator. -/
def Frac.floor (a : Frac) : Int := Int.fdiv a.num a.den

/-- Python's round-half-to-even of a fraction to an integer
(exact-arithmetic model of round(x)). -/
def Frac.roundHalfEven (a : Frac) : Int :=
  let n := a.floor
  let twiceRem := 2 * (a.num - n * a.den)
  if twiceRem < a.den then n
  else if a.den < twiceRem then n + 1
  else if Even n then n else n + 1

/-- Python's round(x, 1), returned as the number of tenths (an integer),
which determines the rounded value x bijectively. -/
def Frac.roundTenths (a : Frac) : Int :=
  Frac.roundHalfEven ⟨a.num * 10, a.den⟩

/- Character classes, following Python string semantics restricted to the
ASCII repertoire of the inputs considered in this development. -/

/-- Whitespace characters recognized by Python's str.strip / \s (ASCII). -/
def isWs (c : Char) : Bool :=
  c == ' ' || c == '\t' || c == '\n' || c == '\r' ||
    c == Char.ofNat 11 || c == Char.ofNat 12

/-- ASCII decimal digit. -/
def isDigitC (c : Char) : Bool := '0' ≤ c && c ≤ '9'

/-- ASCII uppercase letter. -/
def isUpperC (c : Char) : Bool := 'A' ≤ c && c ≤ 'Z'

/-- ASCII lowercase letter. -/
def isLowerC (c : Char) : Bool := 'a' ≤ c && c ≤ 'z'

/-- ASCII letter. -/
def isAlphaC (c : Char) : Bool := isUpperC c || isLowerC c

/-- Word character of the regex class \w (ASCII model). -/
def isWordC (c : Char) : Bool := isAlphaC c || isDigitC c || c == '_'

/-- ASCII lowercasing of one character, as Python str.lower on ASCII. -/
def lowC (c : Char) : Char := if isUpperC c then Char.ofNat (c.toNat + 32) else c

/-- Lowercase a character list. -/
def lowers (l : List Char) : List Char := l.map lowC

/-- Drop leading whitespace. -/
def dropLeadWs (l : List Char) : List Char := l.dropWhile isWs

/-- Python str.strip(): drop leading and trailing whitespace. -/
def stripWs (l : List Char) : List Char :=
  ((l.dropWhile isWs).reverse.dropWhile isWs).reverse

/-- Splitting on whitespace runs, as Python str.split() with no
argument: the accumulated current word is held reversed. -/
def splitWsAux (cur : List Char) : List Char → List (List Char)
  | [] => if cur.isEmpty then [] else [cur.reverse]
  | c :: rest =>
      if isWs c then
        if cur.isEmpty then splitWsAux [] rest
        else cur.reverse :: splitWsAux [] rest
      else splitWsAux (c :: cur) rest

/-- Python str.split() with no argument. -/
def splitWs (l : List Char) : List (List Char) := splitWsAux [] l

/-- Number of whitespace-separated words, len(s.split()). -/
def wordCount (s : String) : Nat := (splitWs s.toList).length

/-- Join words with single spaces. -/
def joinSp : List (List Char) → List Char
  | [] => []
  | [w] => w
  | w :: ws => w ++ ' ' :: joinSp ws

/-- Whitespace normalization, the composite of the regex substitution
\s+ to a single space and str.strip() appearing throughout the sources;
it equals joining the whitespace-split words with single spaces. -/
def normSpace (l : List Char) : List Char := joinSp (splitWs l)

/-- Python str.istitle() on ASCII: cased characters alternate correctly
and at least one cased character occurs.  prevCased tracks whether the
previous character was cased. -/
def isTitleAux (prevCased : Bool) (sawCased : Bool) : List Char → Bool
  | [] => sawCased
  | c :: rest =>
      if isUpperC c then
        if prevCased then false else isTitleAux true true rest
      else if isLowerC c then
        if prevCased then isTitleAux true true rest else false
      else isTitleAux false sawCased rest

/-- Python str.istitle() (ASCII model). -/
def pyIsTitle (s : String) : Bool := isTitleAux false false s.toList

/-- Python str.isupper() on ASCII: at least one cased character and no
lowercase character. -/
def pyIsUpper (s : String) : Bool :=
  s.toList.any isAlphaC && s.toList.all (fun c => !isLowerC c)

/-- Containment of a character sequence (Python's in on strings). -/
def containsSeq (needle : List Char) : List Char → Bool
  | [] => needle.isEmpty
  | c :: rest => needle.isPrefixOf (c :: rest) || containsSeq needle rest

/-- Split a character list on '\n', as Python str.split with a newline
argument (keeps empty pieces). -/
def splitNl (l : List Char) : List (List Char) := l.splitOn '\n'

/-- Helper for replaceSeq, structurally recursive on a fuel argument so
that it stays kernel-computable; every step consumes at least one input
character, so fuel equal to the input length is always enough. -/
def replaceSeqAux (p : Char) (ps rep : List Char) : Nat → List Char → List Char
  | _, [] => []
  | 0, l => l
  | fuel + 1, c :: rest =>
      if (p :: ps).isPrefixOf (c :: rest) then
        rep ++ replaceSeqAux p ps rep fuel (rest.drop ps.length)
      else
        c :: replaceSeqAux p ps rep fuel rest

/-- Replace every occurrence of a character sequence by another, scanning
left to right (Python str.replace; an empty pattern is a no-op here,
never used below). -/
def replaceSeq (pat rep l : List Char) : List Char :=
  match pat with
  | [] => l
  | p :: ps => replaceSeqAux p ps rep l.length l

/- Tiny deterministic consumers used to transcribe the regular
expressions of the sources.  Each consumes a prefix of the remaining
character list and yields the rest, or fails.  The greedy strategy is
equivalent to the regexes transcribed below because in each of them the
repeated character class is disjoint from the literal that follows. -/

/-- Consume a run of characters satisfying p, returning (run, rest). -/
def runSplit (p : Char → Bool) (l : List Char) : List Char × List Char :=
  (l.takeWhile p, l.dropWhile p)

/-- Consume one or more digits. -/
def eatD1 (l : List Char) : Option (List Char) :=
  let (t, r) := runSplit isDigitC l
  if t.isEmpty then none else some r

/-- Consume a digit run whose length lies in [lo, hi]. -/
def eatDRange (lo hi : Nat) (l : List Char) : Option (List Char) :=
  let (t, r) := runSplit isDigitC l
  if lo ≤ t.length ∧ t.length ≤ hi then some r else none

/-- Consume exactly n digits (the following character, if any, may also be
a digit; used only for prefix-matching regexes such as a trailing d{5}). -/
def eatDExact (n : Nat) (l : List Char) : Option (List Char) :=
  if (l.take n).all isDigitC ∧ n ≤ l.length then some (l.drop n) else none

/-- Consume one or more whitespace characters. -/
def eatWs1 (l : List Char) : Option (List Char) :=
  let (t, r) := runSplit isWs l
  if t.isEmpty then none else some r

/-- Consume one or more ASCII letters. -/
def eatA1 (l : List Char) : Option (List Char) :=
  let (t, r) := runSplit isAlphaC l
  if t.isEmpty then none else some r

/-- Consume one or more word characters. -/
def eatW1 (l : List Char) : Option (List Char) :=
  let (t, r) := runSplit isWordC l
  if t.isEmpty then none else some r

/-- Consume one literal character. -/
def eatC (c : Char) : List Char → Option (List Char)
  | [] => none
  | x :: r => if x = c then some r else none

/-- Consume a literal character sequence. -/
def eatS (s : List Char) (l : List Char) : Option (List Char) :=
  if s.isPrefixOf l then some (l.drop s.length) else none

/-- Succeed only at the end of the input (the regex anchor). -/
def atEnd (l : List Char) : Bool := l.isEmpty

namespace Main7

/-! Shallow embedding of main7.py (SmartPDFOutlineExtractor).  Configured
thresholds: min_heading_length 5, max_heading_length 150, min_font_size 8,
max_headings_per_level 15. -/

/-- A text element as built by extract_text_elements: cleaned text, the
largest font size on the line, the lowercased most common font name, the
1-based page, boldness of the font name and the y origin of the bbox. -/
structure Element where
  text : String
  fontSize : Frac
  fontName : String
  page : Int
  isBold : Bool
  positionY : Frac
  deriving Repr, DecidableEq

/-- Document statistics (base_size and large_threshold; avg_size and
size_distribution are also computed by the source but never read
downstream). -/
structure DocStats where
  baseSize : Frac
  largeThreshold : Frac

/-- A heading candidate before deduplication. -/
structure Heading where
  level : String
  text : String
  page : Int
  fontSize : Frac

/-- A final outline entry (font_size removed). -/
structure OutEntry where
  level : String
  text : String
  page : Int
  deriving DecidableEq, Repr

/-- The returned document record. -/
structure OutDoc where
  title : String
  outline : List OutEntry
  deriving DecidableEq, Repr

/- Form-field patterns (matched with re.match and re.IGNORECASE; all
matchers below therefore receive the lowercased character list, with
letter classes generalized to any letter accordingly). -/

/-- Pattern r-digits dot ws end (just a list number). -/
def ffNum (l : List Char) : Bool :=
  (do
    let r ← eatD1 l
    let r ← eatC '.' r
    pure ((r.dropWhile isWs).isEmpty)).getD false

/-- Pattern of 1 to 4 letters only (short acronyms; case-insensitive). -/
def ffAcronym (l : List Char) : Bool :=
  l.all isAlphaC && decide (1 ≤ l.length ∧ l.length ≤ 4)

/-- The fixed form-label alternatives. -/
def ffLabelWords : List (List Char) :=
  ["name".toList, "date".toList, "age".toList, "signature".toList,
   "rs.".toList, "s.no".toList, "relationship".toList, "designation".toList]

/-- Exact match against one of the form-label words. -/
def ffLabel (l : List Char) : Bool := ffLabelWords.any (fun w => w == l)

/-- Pattern word-characters colon ws end (a label ending with a colon). -/
def ffColon (l : List Char) : Bool :=
  (do
    let r ← eatW1 l
    let r ← eatC ':' r
    pure ((r.dropWhile isWs).isEmpty)).getD false

/-- Pattern of two or more separator characters only. -/
def ffSep (l : List Char) : Bool :=
  l.all (fun c => c == '-' || c == '_' || c == '=') && decide (2 ≤ l.length)

/-- Date pattern d{1,2}/d{1,2}/d{2,4} anchored at both ends. -/
def ffDate (l : List Char) : Bool :=
  (do
    let r ← eatDRange 1 2 l
    let r ← eatC '/' r
    let r ← eatDRange 1 2 r
    let r ← eatC '/' r
    let r ← eatDRange 2 4 r
    pure (atEnd r)).getD false

/-- The page-number pattern: the word page, whitespace, digits, end. -/
def ffPage (l : List Char) : Bool :=
  (do
    let r ← eatS "page".toList l
    let r ← eatWs1 r
    let r ← eatD1 r
    pure (atEnd r)).getD false

/-- The email-like pattern word at word dot word, anchored. -/
def ffEmail (l : List Char) : Bool :=
  (do
    let r ← eatW1 l
    let r ← eatC '@' r
    let r ← eatW1 r
    let r ← eatC '.' r
    let r ← eatW1 r
    pure (atEnd r)).getD false

/-- The www URL pattern (prefix match). -/
def ffWww (l : List Char) : Bool :=
  (do
    let r ← eatS "www.".toList l
    let _ ← eatW1 r
    pure true).getD false

/-- The http(s) URL pattern (prefix match). -/
def ffHttp (l : List Char) : Bool :=
  (do
    let r ← eatS "http".toList l
    let r := ((eatC 's' r).getD r)
    let _ ← eatS "://".toList r
    pure true).getD false

/-- The US phone-number pattern. -/
def ffPhone (l : List Char) : Bool :=
  (do
    let r ← eatC '(' l
    let r ← eatDRange 3 3 r
    let r ← eatC ')' r
    let r := r.dropWhile isWs
    let r ← eatDRange 3 3 r
    let r ← eatC '-' r
    let r ← eatDRange 4 4 r
    pure (atEnd r)).getD false

/-- The ZIP-code pattern d{5}(-d{4})? anchored. -/
def ffZip (l : List Char) : Bool :=
  (do
    let r ← eatDRange 5 5 l
    match r with
    | [] => pure true
    | '-' :: r2 =>
        (do
          let r3 ← eatDRange 4 4 r2
          pure (atEnd r3) : Option Bool)
    | _ => pure false).getD false

/-- is_form_field: true when any form-field pattern matches the
lowercased text. -/
def isFormField (s : String) : Bool :=
  let l := lowers s.toList
  ffNum l || ffAcronym l || ffLabel l || ffColon l || ffSep l || ffDate l ||
    ffPage l || ffEmail l || ffWww l || ffHttp l || ffPhone l || ffZip l

/-- Address pattern digits ws caps-and-spaces, anchored
(case-insensitive, so the letter class is any letter). -/
def adStreet (l : List Char) : Bool :=
  (do
    let r ← eatD1 l
    match r with
    | [] => pure false
    | c :: rest =>
        pure (isWs c && !rest.isEmpty &&
          (c :: rest).all (fun x => isWs x || isAlphaC x))).getD false

/-- Address pattern city comma state ZIP (prefix match). -/
def adCityStZip (l : List Char) : Bool :=
  (do
    let (t, r) := runSplit (fun c => isAlphaC c || isWs c) l
    if t.isEmpty then none else
    let r ← eatC ',' r
    let r := r.dropWhile isWs
    let r ← (if (r.take 2).all isAlphaC ∧ 2 ≤ r.length then some (r.drop 2) else none)
    let r ← eatWs1 r
    let _ ← eatDExact 5 r
    pure true).getD false

/-- Address pattern parenthesized caps-and-spaces, anchored. -/
def adParen (l : List Char) : Bool :=
  (do
    let r ← eatC '(' l
    let (t, r2) := runSplit (fun c => isAlphaC c || isWs c) r
    if t.isEmpty then none else
    let r3 ← eatC ')' r2
    pure (atEnd r3)).getD false

/-- is_address_or_contact on the lowercased text. -/
def isAddressOrContact (s : String) : Bool :=
  let l := lowers s.toList
  adStreet l || adCityStZip l || adParen l

/- Heading patterns (also matched with re.IGNORECASE). -/

/-- Numbered heading digits dot ws letter (prefix). -/
def hpNumbered (l : List Char) : Bool :=
  (do
    let r ← eatD1 l
    let r ← eatC '.' r
    let r ← eatWs1 r
    match r with
    | c :: _ => pure (isAlphaC c)
    | [] => pure false).getD false

/-- A keyword followed by whitespace and a number (prefix). -/
def hpKeywordNum (kw : List Char) (l : List Char) : Bool :=
  (do
    let r ← eatS kw l
    let r ← eatWs1 r
    let _ ← eatD1 r
    pure true).getD false

/-- Title-case pattern: under IGNORECASE both letter classes become any
letter, so the pattern is a first word of two or more letters, further
words of one or more letters separated by whitespace runs, then optional
whitespace, an optional colon and optional whitespace to the end.  After
peeling the optional trailing whitespace, colon and whitespace, that is
exactly: nonempty, only letters and whitespace, first and last characters
letters, and a first word of length at least two. -/
def hpTitleCase (l : List Char) : Bool :=
  let r1 := l.reverse.dropWhile isWs
  let r2 := match r1 with
    | ':' :: rr => rr
    | _ => r1
  let rem := (r2.dropWhile isWs).reverse
  match rem with
  | [] => false
  | c :: _ =>
      isAlphaC c && rem.all (fun x => isAlphaC x || isWs x) &&
        (match rem.getLast? with
         | some z => isAlphaC z
         | none => false) &&
        (match splitWs rem with
         | w :: _ => decide (2 ≤ w.length)
         | [] => false)

/-- All-caps pattern caps-and-spaces then a final letter, anchored;
under IGNORECASE any letter qualifies. -/
def hpAllCaps (l : List Char) : Bool :=
  decide (2 ≤ l.length) && l.all (fun c => isAlphaC c || isWs c) &&
    (match l.getLast? with
     | some c => isAlphaC c
     | none => false)

/-- Sub-numbered pattern digits dot digits ws (prefix). -/
def hpSubNum (l : List Char) : Bool :=
  (do
    let r ← eatD1 l
    let r ← eatC '.' r
    let r ← eatD1 r
    let _ ← eatWs1 r
    pure true).getD false

/-- A fixed structural keyword followed only by whitespace. -/
def hpKeywordOnly (kw : List Char) (l : List Char) : Bool :=
  (do
    let r ← eatS kw l
    pure (r.all isWs)).getD false

/-- The application-form pattern (prefix). -/
def hpApplicationForm (l : List Char) : Bool :=
  (do
    let r ← eatS "application".toList l
    let r ← eatWs1 r
    let _ ← eatS "form".toList r
    pure true).getD false

/-- matches_heading_pattern on the lowercased text. -/
def matchesHeadingPattern (s : String) : Bool :=
  let l := lowers s.toList
  hpNumbered l || hpKeywordNum "chapter".toList l ||
    hpKeywordNum "section".toList l || hpTitleCase l || hpAllCaps l ||
    hpSubNum l ||
    hpKeywordOnly "overview".toList l || hpKeywordOnly "introduction".toList l ||
    hpKeywordOnly "conclusion".toList l || hpKeywordOnly "references".toList l ||
    hpKeywordOnly "acknowledgements".toList l || hpKeywordOnly "abstract".toList l ||
    hpKeywordOnly "summary".toList l || hpApplicationForm l

/-- The pure-number pattern digits only, anchored. -/
def matchAllDigits (l : List Char) : Bool := !l.isEmpty && l.all isDigitC

/-- Numbered-section depth-three pattern (prefix). -/
def matchN3 (l : List Char) : Bool :=
  (do
    let r ← eatD1 l
    let r ← eatC '.' r
    let r ← eatD1 r
    let r ← eatC '.' r
    let _ ← eatD1 r
    pure true).getD false

/-- Numbered-section depth-two pattern (prefix). -/
def matchN2 (l : List Char) : Bool :=
  (do
    let r ← eatD1 l
    let r ← eatC '.' r
    let _ ← eatD1 r
    pure true).getD false

/-- Numbered-section depth-one pattern (prefix). -/
def matchN1 (l : List Char) : Bool :=
  (do
    let r ← eatD1 l
    let _ ← eatC '.' r
    pure true).getD false

/-- Chapter-or-part keyword pattern, case-insensitive (prefix). -/
def matchChapPart (lowered : List Char) : Bool :=
  hpKeywordNum "chapter".toList lowered || hpKeywordNum "part".toList lowered

/-- determine_heading_level: numbered-section depth decides first, then
chapter, part and section keywords, then font size against the large
threshold. -/
def determineHeadingLevel (text : String) (fontSize : Frac) (st : DocStats) : String :=
  let cs := text.toList
  if matchN3 cs then "H3"
  else if matchN2 cs then "H2"
  else if matchN1 cs then "H1"
  else if matchChapPart (lowers cs) then "H1"
  else if hpKeywordNum "section".toList (lowers cs) then "H2"
  else if Frac.blt (Frac.add st.largeThreshold (Frac.ofInt 2)) fontSize then "H1"
  else if Frac.blt st.largeThreshold fontSize then "H2"
  else "H3"

/-- Count of occurrences of a value in a list of fractions, by value. -/
def countFrac (x : Frac) (l : List Frac) : Nat := l.countP (fun y => Frac.beq x y)

/-- The distinct values of a fraction list, in first-occurrence order. -/
def firstUniqFrac (seen : List Frac) : List Frac → List Frac
  | [] => []
  | x :: rest =>
      if seen.any (fun y => Frac.beq x y) then firstUniqFrac seen rest
      else x :: firstUniqFrac (x :: seen) rest

/-- The most frequent value (Counter.most_common(1)), with ties resolved
toward the earliest first occurrence, as Python's stable selection. -/
def firstMostCommon (l : List Frac) : Frac :=
  match firstUniqFrac [] l with
  | [] => Frac.ofInt 0
  | u :: us => us.foldl (fun best x => if countFrac best l < countFrac x l then x else best) u

/-- calculate_document_stats: the most common size is the base, the large
threshold is max(base + 2, avg + 1); an empty element list defaults to
base 12, large threshold 14. -/
def calculateDocumentStats (elements : List Element) : DocStats :=
  let allSizes := elements.map (·.fontSize)
  if allSizes.isEmpty then ⟨Frac.ofInt 12, Frac.ofInt 14⟩
  else
    let baseSize := firstMostCommon allSizes
    let avgSize := Frac.div (Frac.sum allSizes) (Frac.ofInt allSizes.length)
    ⟨baseSize, Frac.fmax (Frac.add baseSize (Frac.ofInt 2)) (Frac.add avgSize (Frac.ofInt 1))⟩

/-- is_likely_heading: length band, form-field and address exclusion,
then an integer score from pattern, font, boldness, position and text
shape, accepted at score at least 2. -/
def isLikelyHeading (e : Element) (st : DocStats) : Bool :=
  let text := e.text
  if text.length < 5 ∨ 150 < text.length then false
  else if isFormField text then false
  else if isAddressOrContact text then false
  else
    let score : Int :=
      (if matchesHeadingPattern text then 3 else 0)
      + (if Frac.blt st.largeThreshold e.fontSize then 2
         else if Frac.blt st.baseSize e.fontSize then 1 else 0)
      + (if e.isBold then 2 else 0)
      + (if Frac.blt (Frac.ofInt 700) e.positionY then 1 else 0)
      + (if pyIsTitle text && decide (1 < wordCount text) then 1 else 0)
      + (if pyIsUpper text && decide (5 ≤ text.length ∧ text.length ≤ 50) then 1 else 0)
      - (if matchAllDigits text.toList then 2 else 0)
      - (if 3 < text.toList.countP (· == '.') then 1 else 0)
    decide (2 ≤ score)

/-- The sort key of deduplicate_and_limit: page ascending then font size
descending; non-strict so that insertion sort is stable like Python's. -/
def dedupRel (a b : Heading) : Prop :=
  a.page < b.page ∨ (a.page = b.page ∧ Frac.ble b.fontSize a.fontSize = true)

instance : DecidableRel dedupRel := fun a b =>
  inferInstanceAs (Decidable (a.page < b.page ∨
    (a.page = b.page ∧ Frac.ble b.fontSize a.fontSize = true)))

/-- Lookup in the per-level counter. -/
def getCount (m : List (String × Nat)) (k : String) : Nat :=
  ((m.find? (fun p => p.1 == k)).map Prod.snd).getD 0

/-- Increment in the per-level counter. -/
def incCount (m : List (String × Nat)) (k : String) : List (String × Nat) :=
  if m.any (fun p => p.1 == k) then
    m.map (fun p => if p.1 == k then (p.1, p.2 + 1) else p)
  else m ++ [(k, 1)]

/-- The dedup key of a text: lower then strip. -/
def dedupKey (s : String) : List Char := stripWs (lowers s.toList)

/-- The deduplication fold: skip seen texts, cap each level at maxPer,
otherwise emit the entry without its font size. -/
def dedupAux (maxPer : Nat) (seen : List (List Char)) (counts : List (String × Nat)) :
    List Heading → List OutEntry
  | [] => []
  | h :: rest =>
      let key := dedupKey h.text
      if key ∈ seen then dedupAux maxPer seen counts rest
      else if maxPer ≤ getCount counts h.level then dedupAux maxPer seen counts rest
      else ⟨h.level, h.text, h.page⟩ ::
        dedupAux maxPer (key :: seen) (incCount counts h.level) rest

/-- deduplicate_and_limit: sort by page then size descending, then the
deduplication fold with the per-level cap 15. -/
def deduplicateAndLimit (headings : List Heading) : List OutEntry :=
  dedupAux 15 [] [] (List.insertionSort dedupRel headings)

/-- Acceptability of a title candidate among the first ten elements. -/
def titleCandOk (t : String) : Bool :=
  !isFormField t && !isAddressOrContact t &&
    decide (10 < t.length) && !matchN1 t.toList &&
    (containsSeq "form".toList (lowers t.toList) ||
      containsSeq "application".toList (lowers t.toList) ||
      containsSeq "overview".toList (lowers t.toList) ||
      containsSeq "document".toList (lowers t.toList) ||
      decide (3 ≤ wordCount t))

/-- extract_title: first good candidate among the first ten elements,
else the first substantial H1 heading, else the first heading, else the
fixed fallback. -/
def extractTitle (elements : List Element) (headings : List OutEntry) : String :=
  match ((elements.take 10).map (·.text)).filter titleCandOk with
  | t :: _ => t
  | [] =>
      match headings.filter (fun h => h.level == "H1" && decide (10 < h.text.length)) with
      | h :: _ => h.text
      | [] =>
          match headings with
          | h :: _ => h.text
          | [] => "Document"

/-- process_document after span extraction: empty input degrades to the
fixed record, otherwise statistics, scoring, level assignment,
deduplication and title resolution. -/
def processDocument (elements : List Element) : OutDoc :=
  if elements.isEmpty then ⟨"Document", []⟩
  else
    let st := calculateDocumentStats elements
    let cands := (elements.filter (fun e => isLikelyHeading e st)).map
        (fun e =>
          ({ level := determineHeadingLevel e.text e.fontSize st,
             text := e.text, page := e.page, fontSize := e.fontSize } : Heading))
    let final := deduplicateAndLimit cands
    ⟨extractTitle elements final, final⟩

end Main7

/-- The distinct values of a list, in first-occurrence order (the key
order of a Python dict built by insertion). -/
def firstUniq {α : Type} [DecidableEq α] (seen : List α) : List α → List α
  | [] => []
  | x :: rest =>
      if x ∈ seen then firstUniq seen rest
      else x :: firstUniq (x :: seen) rest

/-- Position of the first occurrence of a value in a list (meaningful
when the value occurs). -/
def idxOf {α : Type} [DecidableEq α] (x : α) : List α → Nat
  | [] => 0
  | a :: as => if a = x then 0 else idxOf x as + 1

namespace MainPy

/-! Shallow embedding of main.py (MultilingualPDFParser): font-property
clustering, level assignment and title extraction. -/

/-- A formatted span as built by extract_formatted_spans. -/
structure Span where
  text : String
  size : Frac
  font : String
  flags : Nat
  page : Int
  bbox : Frac × Frac × Frac × Frac
  deriving Repr, DecidableEq

/-- A final outline entry. -/
structure OutEntry where
  level : String
  text : String
  page : Int
  deriving DecidableEq, Repr

/-- The font-property key: round(size, 1) (kept as integer tenths, which
determines the rounded value bijectively), lowercased font name, bold
flag (flags bit 4) and italic flag (flags bit 1). -/
abbrev FontKey := Int × String × Bool × Bool

/-- The font key of a span. -/
def fontKey (s : Span) : FontKey :=
  (Frac.roundTenths s.size, String.mk (lowers s.font.toList),
    (s.flags &&& 16) != 0, (s.flags &&& 2) != 0)

/-- Insert a span into the insertion-ordered group map. -/
def groupIns (acc : List (FontKey × List Span)) (k : FontKey) (h : Span) :
    List (FontKey × List Span) :=
  if acc.any (fun p => p.1 == k) then
    acc.map (fun p => if p.1 == k then (p.1, p.2 ++ [h]) else p)
  else acc ++ [(k, [h])]

/-- group_by_font_properties: a dict keyed by font properties, in key
insertion order, each group in discovery order. -/
def groupByFontProperties (spans : List Span) : List (FontKey × List Span) :=
  spans.foldl (fun acc h => groupIns acc (fontKey h) h) []

/-- The sort relation of assign_heading_levels: descending on (rounded
size, bold); non-strict so that insertion sort is stable like Python's
sorted with reverse=True. -/
def groupRel (a b : FontKey × List Span) : Prop :=
  b.1.1 < a.1.1 ∨ (a.1.1 = b.1.1 ∧ (b.1.2.2.1 = true → a.1.2.2.1 = true))

instance : DecidableRel groupRel := fun a b =>
  inferInstanceAs (Decidable (b.1.1 < a.1.1 ∨
    (a.1.1 = b.1.1 ∧ (b.1.2.2.1 = true → a.1.2.2.1 = true))))

instance : IsTotal (FontKey × List Span) groupRel := by
  constructor
  intro a b
  unfold groupRel
  rcases lt_trichotomy a.1.1 b.1.1 with h | h | h
  · exact Or.inr (Or.inl h)
  · by_cases hb : b.1.2.2.1 = true
    · by_cases ha : a.1.2.2.1 = true
      · exact Or.inl (Or.inr ⟨h, fun _ => ha⟩)
      · exact Or.inr (Or.inr ⟨h.symm, fun _ => hb⟩)
    · exact Or.inl (Or.inr ⟨h, fun hcb => absurd hcb hb⟩)
  · exact Or.inl (Or.inl h)

instance : IsTrans (FontKey × List Span) groupRel := by
  constructor
  intro a b c hab hbc
  unfold groupRel at *
  rcases hab with h1 | ⟨h1, h1b⟩ <;> rcases hbc with h2 | ⟨h2, h2b⟩
  · exact Or.inl (h2.trans h1)
  · exact Or.inl (h2 ▸ h1)
  · exact Or.inl (h1 ▸ h2)
  · exact Or.inr ⟨h1.trans h2, fun hc => h1b (h2b hc)⟩

/-- level_map lookup with default: index 0 is H1, 1 is H2, anything else
falls back to H3. -/
def levelMapGet (i : Nat) : String :=
  if i = 0 then "H1" else if i = 1 then "H2" else "H3"

/-- The final sort relation of assign_heading_levels: ascending page
only (Python sorts with key page, stably). -/
def pageRel (a b : OutEntry) : Prop := a.page ≤ b.page

instance : DecidableRel pageRel := fun a b =>
  inferInstanceAs (Decidable (a.page ≤ b.page))

instance : IsTotal OutEntry pageRel :=
  ⟨fun a b => Int.le_total a.page b.page⟩

instance : IsTrans OutEntry pageRel :=
  ⟨fun _ _ _ hab hbc => le_trans hab hbc⟩

/-- assign_heading_levels: sort the groups by (size, bold) descending,
keep the top three, map their indices to H1, H2, H3, flatten and sort by
page number only. -/
def assignHeadingLevels (fontGroups : List (FontKey × List Span)) : List OutEntry :=
  let sortedGroups := (List.insertionSort groupRel fontGroups).take 3
  let headings := (sortedGroups.enum.map (fun ig =>
      ig.2.2.map (fun h =>
        ({ level := levelMapGet ig.1, text := h.text, page := h.page } : OutEntry)))).flatten
  List.insertionSort pageRel headings

/-- classify_headings_multilingual restricted to its last two stages:
cluster the given potential headings by font properties and assign
levels.  (The upstream text filter of the source is orthogonal to the
ordering properties studied here and is not embedded.) -/
def classifyFrom (potentialHeadings : List Span) : List OutEntry :=
  assignHeadingLevels (groupByFontProperties potentialHeadings)

/-- extract_title of main.py: the stripped metadata title when nonempty,
else the first H1 heading, else the first heading, else the fixed
fallback. -/
def extractTitle (metaTitle : Option String) (headings : List OutEntry) : String :=
  match metaTitle with
  | some t =>
      if (stripWs t.toList).isEmpty then extractTitleNoMeta headings
      else String.mk (stripWs t.toList)
  | none => extractTitleNoMeta headings
where
  /-- The metadata-free tail of the fallback chain. -/
  extractTitleNoMeta (headings : List OutEntry) : String :=
    match headings.find? (fun h => h.level == "H1") with
    | some h => h.text
    | none =>
        match headings with
        | h :: _ => h.text
        | [] => "Document"

end MainPy

namespace Main2

/-! Shallow embedding of main2.py (PDFOutlineExtractor): the conservative
heading filter and the style-to-level map. -/

/-- A formatted span with its bounding box (x0, y0, x1, y1). -/
structure Span where
  text : String
  size : Frac
  font : String
  flags : Nat
  page : Int
  bbox : Frac × Frac × Frac × Frac
  deriving Repr, DecidableEq

/-- Boldness as tested throughout main2.py: the word bold inside the
lowercased font name, or flags bit 4. -/
def spanBold (s : Span) : Bool :=
  containsSeq "bold".toList (lowers s.font.toList) || ((s.flags &&& 16) != 0)

/-- The list-item rejection pattern: optional whitespace, a bullet
character, a star, a dash, digits followed by a dot, or a word character
followed by a closing parenthesis, then at least one whitespace. -/
def matchListItem (l : List Char) : Bool :=
  let r := l.dropWhile isWs
  let afterAlt : Option (List Char) :=
    match r with
    | [] => none
    | c :: rest =>
        if c = '•' ∨ c = '●' ∨ c = '▪' ∨ c = '▫' ∨ c = '■' ∨ c = '◆' ∨
            c = '❖' ∨ c = '*' ∨ c = '-' then some rest
        else
          match eatD1 (c :: rest) with
          | some r2 =>
              match eatC '.' r2 with
              | some r3 => some r3
              | none => if isWordC c then eatC ')' rest else none
          | none => if isWordC c then eatC ')' rest else none
  match afterAlt with
  | some r2 => (eatWs1 r2).isSome
  | none => false

/-- is_potential_heading: reject list items, long lines and lines inside
the top or bottom tenth of the page, then require a large or bold font.
(The all-caps and colon indicators are computed by the source but never
used in its decision.) -/
def isPotentialHeading (s : Span) (pageHeight : Frac) : Bool :=
  if matchListItem s.text.toList then false
  else if 15 < wordCount s.text then false
  else if Frac.blt s.bbox.2.1 (Frac.mul pageHeight ⟨1, 10⟩) ||
      Frac.blt (Frac.mul pageHeight ⟨9, 10⟩) s.bbox.2.2.2 then false
  else
    let isLarge := Frac.blt ⟨27, 2⟩ s.size
    let isBold := spanBold s
    if !(isLarge || isBold) then false
    else true

/-- The style key: round(size) (half to even) and boldness. -/
abbrev StyleKey := Int × Bool

/-- The style key of a span. -/
def styleKeyOf (s : Span) : StyleKey := (Frac.roundHalfEven s.size, spanBold s)

/-- The style keys of a span list in dict insertion order. -/
def styleKeys (spans : List Span) : List StyleKey :=
  firstUniq [] (spans.map styleKeyOf)

/-- The style ranking relation: descending on (size, bold); non-strict
for stability. -/
def styleRel (a b : StyleKey) : Prop :=
  b.1 < a.1 ∨ (a.1 = b.1 ∧ (b.2 = true → a.2 = true))

instance : DecidableRel styleRel := fun a b =>
  inferInstanceAs (Decidable (b.1 < a.1 ∨ (a.1 = b.1 ∧ (b.2 = true → a.2 = true))))

instance : IsTotal StyleKey styleRel := by
  constructor
  intro a b
  unfold styleRel
  rcases lt_trichotomy a.1 b.1 with h | h | h
  · exact Or.inr (Or.inl h)
  · by_cases hb : b.2 = true
    · by_cases ha : a.2 = true
      · exact Or.inl (Or.inr ⟨h, fun _ => ha⟩)
      · exact Or.inr (Or.inr ⟨h.symm, fun _ => hb⟩)
    · exact Or.inl (Or.inr ⟨h, fun hcb => absurd hcb hb⟩)
  · exact Or.inl (Or.inl h)

instance : IsTrans StyleKey styleRel := by
  constructor
  intro a b c hab hbc
  unfold styleRel at *
  rcases hab with h1 | ⟨h1, h1b⟩ <;> rcases hbc with h2 | ⟨h2, h2b⟩
  · exact Or.inl (h2.trans h1)
  · exact Or.inl (h2 ▸ h1)
  · exact Or.inl (h1 ▸ h2)
  · exact Or.inr ⟨h1.trans h2, fun hc => h1b (h2b hc)⟩

/-- The styles ranked by prominence. -/
def sortedStyles (spans : List Span) : List StyleKey :=
  List.insertionSort styleRel (styleKeys spans)

/-- Numeric level of a rank index: the first style is level 1, the second
level 2, all later styles level 3. -/
def levelIdxNum (i : Nat) : Nat := if i = 0 then 1 else if i = 1 then 2 else 3

/-- The numeric heading level assigned to a style key by the level map of
main2.py (H1 for the top style, H2 for the next, H3 for the rest). -/
def levelNumOf (spans : List Span) (k : StyleKey) : Nat :=
  levelIdxNum (idxOf k (sortedStyles spans))

/-- The level string written to the outline for a style key. -/
def levelStrOf (spans : List Span) (k : StyleKey) : String :=
  "H" ++ toString (levelNumOf spans k)

end Main2

namespace ProcPdfs

/-! Shallow embedding of process_pdfs.py.  The external span provider
(PyMuPDF) is modeled by the per-page data handed to processPdf: the
page's markdown rendering, its span blocks, the built-in table of
contents, the metadata title and the first-page line records used by the
title resolver.  The hard-coded per-filename overrides of the source
(file01.pdf, file05.pdf) are test-fixture special cases outside the
generalizable pipeline and are not embedded. -/

/-- A raw span (text, size, flags) of a page dictionary. -/
structure Span where
  text : String
  size : Frac
  flags : Nat

/-- A line is its list of spans; a block its list of lines; a page its
list of blocks. -/
abbrev Line := List Span
abbrev Block := List Line
abbrev PdfPage := List Block

/-- Per-page input: the markdown rendering used by the markdown and bold
passes, and the span blocks used by the structure pass. -/
structure PageData where
  md : String
  blocks : PdfPage

/-- A first-page line record used by get_best_title: joined text, the
first span's size, and the line's y origin. -/
structure TLine where
  text : String
  size : Frac
  pos : Frac

/-- One entry of the built-in table of contents. -/
structure TocEntry where
  level : Nat
  title : String
  page : Int

/-- An outline heading. -/
structure Heading where
  level : String
  text : String
  page : Int
  deriving DecidableEq, Repr

/-- The returned record. -/
structure OutDoc where
  title : String
  outline : List Heading
  deriving DecidableEq, Repr

/-- clean_text: drop the markdown marker characters star, underscore and
backquote, replace the mojibake three-character dash sequence by a dash
(the source's two further replaces substitute a straight quote by itself
and are the identity), then collapse whitespace and strip. -/
def cleanText (s : String) : String :=
  let l1 := s.toList.filter
    (fun c => !(c == '*' || c == '_' || c == Char.ofNat 96))
  let l2 := replaceSeq [Char.ofNat 226, Char.ofNat 8364, Char.ofNat 8220] ['-'] l1
  String.mk (normSpace l2)

/-- The scoring context of is_likely_heading (the keys it reads; the
is_bold, line_number and total_lines keys passed by some call sites are
never read by it). -/
structure Context where
  fontSize : Option Frac
  avgFontSize : Option Frac
  isLineStart : Bool
  isIsolated : Bool

/-- One capitalized word: an uppercase letter then one or more lowercase
letters (case-sensitive recipe patterns). -/
def capWord (l : List Char) : Option (List Char) :=
  match l with
  | [] => none
  | c :: r =>
      if isUpperC c then
        let (t, rr) := runSplit isLowerC r
        if t.isEmpty then none else some rr
      else none

/-- Recipe pattern of exactly one capitalized word, anchored. -/
def recipeOne (l : List Char) : Bool :=
  (do
    let r ← capWord l
    pure (atEnd r)).getD false

/-- Recipe pattern of exactly two capitalized words, anchored. -/
def recipeTwo (l : List Char) : Bool :=
  (do
    let r ← capWord l
    let r ← eatC ' ' r
    let r ← capWord r
    pure (atEnd r)).getD false

/-- Recipe pattern of exactly three capitalized words, anchored. -/
def recipeThree (l : List Char) : Bool :=
  (do
    let r ← capWord l
    let r ← eatC ' ' r
    let r ← capWord r
    let r ← eatC ' ' r
    let r ← capWord r
    pure (atEnd r)).getD false

/-- The common heading indicator words. -/
def headingIndicators : List String :=
  ["ingredients", "instructions", "method", "preparation", "recipe",
   "breakfast", "lunch", "dinner", "appetizer", "dessert", "snack",
   "introduction", "conclusion", "summary", "overview", "chapter",
   "section", "part", "step"]

/-- The punctuation characters counted by the scorer (codes 123 and 125
are the curly braces). -/
def punctChars : List Char :=
  ['.', ',', ';', ':', '!', '?', '(', ')', '[', ']', Char.ofNat 123, Char.ofNat 125]

/-- is_likely_heading: a confidence score accumulated from length,
pattern, indicator, capitalization, punctuation and context signals;
accepted above 0.4, with the suggested level H2 above 0.7 (the source
tests 0.9 for H1 only in the elif after 0.7, so H1 is never produced
here). -/
def isLikelyHeading (text : String) (ctx : Option Context) : Bool × Frac × String :=
  if text == "" || decide ((stripWs text.toList).length < 2) then
    (false, Frac.ofInt 0, "H3")
  else
    let t := String.mk (stripWs text.toList)
    let wc := wordCount t
    let cc := t.length
    let c1 : Frac :=
      if wc ≤ 3 then ⟨2, 5⟩ else if wc ≤ 6 then ⟨1, 5⟩
      else if 15 < wc then ⟨-3, 10⟩ else ⟨0, 1⟩
    let c2 : Frac := Frac.add c1
      (if cc ≤ 30 then ⟨1, 5⟩ else if 100 < cc then ⟨-2, 5⟩ else ⟨0, 1⟩)
    let c3 : Frac := Frac.add c2
      (if recipeTwo t.toList || recipeOne t.toList || recipeThree t.toList
        then ⟨3, 10⟩ else ⟨0, 1⟩)
    let c4 : Frac := Frac.add c3
      (if headingIndicators.any
          (fun w => containsSeq w.toList (lowers t.toList))
        then ⟨1, 5⟩ else ⟨0, 1⟩)
    let c5 : Frac := Frac.add c4
      (if pyIsUpper t && decide (wc ≤ 5) then ⟨1, 5⟩
       else if pyIsTitle t then ⟨1, 10⟩ else ⟨0, 1⟩)
    let pc := t.toList.countP (fun c => punctChars.contains c)
    let c6 : Frac := Frac.add c5
      (if pc = 0 then ⟨1, 5⟩
       else if Frac.blt (Frac.div (Frac.ofInt wc) (Frac.ofInt 2)) (Frac.ofInt pc)
        then ⟨-3, 10⟩ else ⟨0, 1⟩)
    let c7 : Frac :=
      match ctx with
      | none => c6
      | some c =>
          let cA := Frac.add c6
            (match c.fontSize, c.avgFontSize with
             | some fs, some av =>
                 let r := Frac.div fs av
                 if Frac.blt ⟨6, 5⟩ r then ⟨3, 10⟩
                 else if Frac.blt ⟨11, 10⟩ r then ⟨1, 10⟩ else ⟨0, 1⟩
             | _, _ => ⟨0, 1⟩)
          let cB := Frac.add cA (if c.isLineStart then ⟨1, 10⟩ else ⟨0, 1⟩)
          Frac.add cB (if c.isIsolated then ⟨1, 5⟩ else ⟨0, 1⟩)
    let suggested :=
      if Frac.blt ⟨7, 10⟩ c7 then "H2"
      else if Frac.blt ⟨9, 10⟩ c7 then "H1" else "H3"
    (Frac.blt ⟨2, 5⟩ c7, c7, suggested)

/-- Parse a stripped line against the markdown heading pattern: one or
more hash marks, whitespace, the rest. -/
def parseMdHash (l : List Char) : Option (Nat × List Char) :=
  let (hs, r) := runSplit (fun c => c == '#') l
  if hs.isEmpty then none
  else
    match eatWs1 r with
    | some rest => some (hs.length, rest)
    | none => none

/-- extract_markdown_headings: explicit hash headings of a page's
markdown, with junk and short texts filtered and the level capped at 6. -/
def extractMarkdownHeadings (md : String) (pageNum : Int) : List Heading :=
  (splitNl md.toList).filterMap (fun line =>
    match parseMdHash (stripWs line) with
    | none => none
    | some kr =>
        let text := cleanText (String.mk kr.2)
        if text.length < 4 || containsSeq "---".toList text.toList then none
        else some ⟨"H" ++ toString (min kr.1 6), text, pageNum⟩)

/-- Split on a two-character star delimiter, keeping all pieces. -/
def splitStarsAux (cur : List Char) : List Char → List (List Char)
  | [] => [cur.reverse]
  | '*' :: '*' :: rest2 => cur.reverse :: splitStarsAux [] rest2
  | c :: rest => splitStarsAux (c :: cur) rest

/-- The findall matches of the lazy bold pattern star-star content
star-star: with the line split on the star-star delimiter, the matches
are the odd-indexed pieces that are followed by a further delimiter. -/
def boldMatches (l : List Char) : List (List Char) :=
  let parts := splitStarsAux [] l
  parts.enum.filterMap (fun ip =>
    if ip.1 % 2 = 1 ∧ ip.1 + 1 < parts.length then some ip.2 else none)

/-- A stripped line that is an explicit markdown heading (hash marks then
one whitespace), skipped by the bold pass. -/
def isMdHeaderLine (ls : List Char) : Bool :=
  let (hs, r) := runSplit (fun c => c == '#') ls
  !hs.isEmpty &&
    (match r with
     | c :: _ => isWs c
     | [] => false)

/-- extract_bold_headings: bold fragments of non-heading lines, cleaned,
scored with a line-start and isolation context and kept when accepted. -/
def extractBoldHeadings (md : String) (pageNum : Int) : List Heading :=
  ((splitNl md.toList).map (fun line =>
    let ls := stripWs line
    if isMdHeaderLine ls then []
    else
      (boldMatches line).filterMap (fun b =>
        let cleaned := cleanText (String.mk b)
        if cleaned == "" then none
        else
          let ctx : Context :=
            { fontSize := none, avgFontSize := none,
              isLineStart := "**".toList.isPrefixOf ls,
              isIsolated := ls.length == b.length + 4 }
          let r := isLikelyHeading cleaned (some ctx)
          if r.1 then some ⟨r.2.2, cleaned, pageNum⟩ else none))).flatten

/-- extract_pdf_structure_headings: average size over all spans of the
page, then per line the concatenated text, the maximal span size and
boldness; bold or sufficiently large lines are scored and kept when
accepted. -/
def extractPdfStructureHeadings (page : PdfPage) (pageNum : Int) : List Heading :=
  let allSizes := (page.flatten.flatten).map (·.size)
  let avg :=
    if allSizes.isEmpty then Frac.ofInt 12
    else Frac.div (Frac.sum allSizes) (Frac.ofInt allSizes.length)
  (page.flatten).filterMap (fun line =>
    let lineText := String.mk ((line.map (·.text.toList)).flatten)
    let maxSize := line.foldl (fun m sp => Frac.fmax m sp.size) (Frac.ofInt 0)
    let isBold := line.any (fun sp => (sp.flags &&& 16) != 0)
    let cleaned := cleanText lineText
    if cleaned == "" then none
    else if isBold || Frac.blt (Frac.mul avg ⟨6, 5⟩) maxSize then
      let ctx : Context :=
        { fontSize := some maxSize, avgFontSize := some avg,
          isLineStart := true, isIsolated := true }
      let r := isLikelyHeading cleaned (some ctx)
      if r.1 then some ⟨r.2.2, cleaned, pageNum⟩ else none
    else none)

/-- The first-page line ranking of get_best_title: size descending, then
y position ascending; non-strict for stability. -/
def tlineRel (a b : TLine) : Prop :=
  Frac.blt b.size a.size = true ∨
    (Frac.beq a.size b.size = true ∧ Frac.ble a.pos b.pos = true)

instance : DecidableRel tlineRel := fun a b =>
  inferInstanceAs (Decidable (Frac.blt b.size a.size = true ∨
    (Frac.beq a.size b.size = true ∧ Frac.ble a.pos b.pos = true)))

/-- Step three of the title fallback: the first meaningful raw text line
of the first page. -/
def fallbackLine (textLines : List String) : String :=
  (textLines.findSome? (fun ln =>
    let c := cleanText ln
    if decide (5 < c.length) && decide (wordCount c < 20) then some c
    else none)).getD ""

/-- get_best_title: the cleaned metadata title when longer than five
characters, else the cleaned text of the largest-then-topmost first-page
line when longer than four characters and under twenty words, else the
first meaningful raw line, else empty. -/
def getBestTitle (meta : String) (lines : List TLine) (textLines : List String) : String :=
  if meta != "" && decide (5 < (cleanText meta).length) then cleanText meta
  else
    match List.insertionSort tlineRel lines with
    | l :: _ =>
        let p := cleanText l.text
        if decide (4 < p.length) && decide (wordCount p < 20) then p
        else fallbackLine textLines
    | [] => fallbackLine textLines

/-- Loop of the leading-numbering regex, counting the consumed length:
after the leading digits, consume further dot-digit groups, then trailing
whitespace.  Structurally recursive on a fuel argument for kernel
computability; each recursive step consumes at least one character, so
fuel equal to the input length is always enough. -/
def numPrefLenLoop : Nat → Nat → List Char → Nat
  | _, acc, [] => acc
  | 0, acc, _ => acc
  | fuel + 1, acc, '.' :: r2 =>
      let d := r2.takeWhile isDigitC
      if d.isEmpty then acc
      else numPrefLenLoop fuel (acc + 1 + d.length) (r2.dropWhile isDigitC)
  | _, acc, l => acc + (l.takeWhile isWs).length

/-- The length of the leading section-numbering match (digits, further
dot-digit groups, trailing whitespace); zero when there is none. -/
def numPrefLen (l : List Char) : Nat :=
  let d := l.takeWhile isDigitC
  if d.isEmpty then 0
  else numPrefLenLoop l.length d.length (l.dropWhile isDigitC)

/-- Strip a leading section numbering from a character list, as the TOC
branch does (the regex substitution of the matched prefix by nothing). -/
def dropNumPref (l : List Char) : List Char := l.drop (numPrefLen l)

/-- The outline heading built from one TOC entry: the level is the raw
TOC depth, the text is the cleaned title with leading numbering removed
and a space appended, the page is clamped to zero. -/
def tocHeading (t : TocEntry) : Heading :=
  ⟨"H" ++ toString t.level,
    String.mk (dropNumPref (cleanText t.title).toList) ++ " ",
    max 0 (t.page - 1)⟩

/-- First-seen deduplication by (stripped text, page). -/
def dedupHAux (seen : List (List Char × Int)) : List Heading → List Heading
  | [] => []
  | h :: rest =>
      let key := (stripWs h.text.toList, h.page)
      if key ∈ seen then dedupHAux seen rest
      else h :: dedupHAux (key :: seen) rest

/-- The deduplication of the bold-analysis branch. -/
def dedupHeadings (hs : List Heading) : List Heading := dedupHAux [] hs

/-- Lexicographic comparison of character lists by code point. -/
def chLe : List Char → List Char → Bool
  | [], _ => true
  | _ :: _, [] => false
  | a :: as, b :: bs => if a < b then true else if b < a then false else chLe as bs

/-- The sort relation of the bold-analysis branch: page, then text. -/
def procRel (a b : Heading) : Prop :=
  a.page < b.page ∨ (a.page = b.page ∧ chLe a.text.toList b.text.toList = true)

instance : DecidableRel procRel := fun a b =>
  inferInstanceAs (Decidable (a.page < b.page ∨
    (a.page = b.page ∧ chLe a.text.toList b.text.toList = true)))

/-- Suffix test on strings via character lists. -/
def sEndsWith (s suffix : String) : Bool := suffix.toList.isSuffixOf s.toList

/-- The first outline text, used by the title fallback on outlines. -/
def headTextOf (outline : List Heading) : String :=
  (outline.head?.map (·.text)).getD ""

/-- The title value of process_pdf before final formatting: get_best_title,
then when empty and the outline is nonempty, the first H1 text (or, when
that is missing or empty, the first entry's text). -/
def resolvedTitle (meta : String) (lines : List TLine) (textLines : List String)
    (outline : List Heading) : String :=
  let t := getBestTitle meta lines textLines
  if t == "" && !outline.isEmpty then
    match outline.find? (fun h => h.level == "H1") with
    | some h => if h.text == "" then headTextOf outline else h.text
    | none => headTextOf outline
  else t

/-- All markdown-pass headings of the document, page by page. -/
def mdFlat (pages : List PageData) : List Heading :=
  (pages.enum.map (fun ip =>
    extractMarkdownHeadings ip.2.md (Int.ofNat ip.1))).flatten

/-- All bold-pass and structure-pass headings of the document. -/
def boldFlat (pages : List PageData) : List Heading :=
  (pages.enum.map (fun ip =>
    extractBoldHeadings ip.2.md (Int.ofNat ip.1) ++
      extractPdfStructureHeadings ip.2.blocks (Int.ofNat ip.1))).flatten

/-- The non-TOC outline: the markdown headings when any were found, else
the deduplicated and sorted bold and structure headings. -/
def nonTocOutline (pages : List PageData) : List Heading :=
  if !(mdFlat pages).isEmpty then mdFlat pages
  else List.insertionSort procRel (dedupHeadings (boldFlat pages))

/-- The trailing-space normalization applied to each entry of the
non-TOC branch. -/
def trailFix (h : Heading) : Heading :=
  if sEndsWith h.text " " then h else { h with text := h.text ++ " " }

/-- process_pdf: the TOC branch when the built-in table of contents has
more than two entries, else the markdown pass and, when that is empty,
the bold and structure passes with deduplication, sorting and
trailing-space normalization; then title resolution and formatting. -/
def processPdf (toc : List TocEntry) (pages : List PageData) (meta : String)
    (titleLines : List TLine) (titleTextLines : List String) : OutDoc :=
  let outline :=
    if 2 < toc.length then toc.map tocHeading
    else (nonTocOutline pages).map trailFix
  let t2 := resolvedTitle meta titleLines titleTextLines outline
  ⟨if t2 != "" then String.mk (stripWs t2.toList) ++ " " else "", outline⟩

/- The specification-shaped title chain used to state the fallback-order
claim: each step is an optional value and the first present one wins. -/

/-- Spec step one: the metadata title, usable past the length threshold. -/
def stepMeta (meta : String) : Option String :=
  if meta != "" && decide (5 < (cleanText meta).length) then some (cleanText meta)
  else none

/-- Spec step two: the most prominent (largest font, then topmost)
first-page fragment, usable when short enough. -/
def stepProminent (lines : List TLine) : Option String :=
  match List.insertionSort tlineRel lines with
  | [] => none
  | l :: _ =>
      let p := cleanText l.text
      if decide (4 < p.length) && decide (wordCount p < 20) then some p else none

/-- Spec step three: the first meaningful raw first-page line. -/
def stepFirstLine (textLines : List String) : Option String :=
  textLines.findSome? (fun ln =>
    let c := cleanText ln
    if decide (5 < c.length) && decide (wordCount c < 20) then some c else none)

/-- Spec step four: the first H1 outline entry. -/
def stepH1 (outline : List Heading) : Option String :=
  (outline.find? (fun h => h.level == "H1")).map (·.text)

/-- Spec step five: the first outline entry of any level. -/
def stepAny (outline : List Heading) : Option String :=
  outline.head?.map (·.text)

/-- Modelled from the spec: the prioritized fallback chain of the title
resolver, first success wins, with the empty string as the final fixed
fallback. -/
def titleChainSpec (meta : String) (lines : List TLine) (textLines : List String)
    (outline : List Heading) : String :=
  (((((stepMeta meta).orElse (fun _ => stepProminent lines)).orElse
      (fun _ => stepFirstLine textLines)).orElse
      (fun _ => stepH1 outline)).orElse
      (fun _ => stepAny outline)).getD ""

/-- The text ends with exactly one space character: its last character is
a space and the character before, when present, is not. -/
def endsOneSpace (s : String) : Bool :=
  match s.toList.reverse with
  | [] => false
  | c :: rest =>
      c == ' ' &&
        (match rest with
         | d :: _ => !(d == ' ')
         | [] => true)

end ProcPdfs

/-- The vertical position associated to an outline entry: the y origin of
the first input span with the same text and page (the association used to
state the reading-order property; main2.py line 151 resolves positions
the same way). -/
def MainPy.yOfEntry (spans : List MainPy.Span) (e : MainPy.OutEntry) : Frac :=
  ((spans.find? (fun s => s.text == e.text && s.page == e.page)).map
    (fun s => s.bbox.2.1)).getD (Frac.ofInt 0)

/-- A character list whose final character, when present, is not
whitespace. -/
def lastNonWs (l : List Char) : Prop :=
  match l.getLast? with
  | some c => isWs c = false
  | none => True

/-- Reading-order check used to state the within-page ordering claim:
consecutive outline entries must be on increasing pages or, within one
page, at non-decreasing vertical positions (resolved through
MainPy.yOfEntry). -/
def MainPy.chainByPageY (spans : List MainPy.Span) : List MainPy.OutEntry → Bool
  | [] => true
  | [_] => true
  | a :: b :: rest =>
      (decide (a.page < b.page) ||
        (decide (a.page = b.page) &&
          Frac.ble (MainPy.yOfEntry spans a) (MainPy.yOfEntry spans b))) &&
        MainPy.chainByPageY spans (b :: rest)

/-- Two bold candidate spans on page 1: a size-14 span near the top of
the page (y origin 100) and a size-20 span further down (y origin 500).
Both pass the heading filter of main.py (their texts are title case). -/
def c4spans : List MainPy.Span :=
  [⟨"Alpha News", Frac.ofInt 14, "TimesBold", 16, 1,
      (Frac.ofInt 0, Frac.ofInt 100, Frac.ofInt 10, Frac.ofInt 110)⟩,
   ⟨"Beta Roundup", Frac.ofInt 20, "TimesBold", 16, 1,
      (Frac.ofInt 0, Frac.ofInt 500, Frac.ofInt 10, Frac.ofInt 510)⟩]

/-! Helper lemmas about the string model. -/

theorem lastNonWs_nil : lastNonWs [] := by
  simp [lastNonWs]

theorem head?_dropWhile_not {p : Char → Bool} {l : List Char} {c : Char}
    (h : (l.dropWhile p).head? = some c) : p c = false := by
  induction l with
  | nil => simp [List.dropWhile] at h
  | cons a as ih =>
      rw [List.dropWhile_cons] at h
      by_cases hp : p a
      · simp [hp] at h; exact ih h
      · simp [hp] at h
        subst h
        simpa using hp

theorem lastNonWs_stripWs (l : List Char) : lastNonWs (stripWs l) := by
  unfold lastNonWs stripWs
  rw [List.getLast?_reverse]
  rcases h : ((l.dropWhile isWs).reverse.dropWhile isWs).head? with _ | c
  · simp
  · simpa using head?_dropWhile_not h

theorem splitWsAux_words (l : List Char) :
    ∀ cur, cur.all (fun c => !isWs c) = true →
      ∀ w ∈ splitWsAux cur l, w ≠ [] ∧ w.all (fun c => !isWs c) = true := by
  induction l with
  | nil =>
      intro cur hcur w hw
      unfold splitWsAux at hw
      by_cases he : cur.isEmpty
      · simp [he] at hw
      · simp [he] at hw
        subst hw
        constructor
        · simpa [List.isEmpty_iff] using he
        · simpa using hcur
  | cons c rest ih =>
      intro cur hcur w hw
      unfold splitWsAux at hw
      by_cases hc : isWs c
      · simp only [hc, if_true] at hw
        by_cases he : cur.isEmpty
        · simp only [he, if_true] at hw
          exact ih [] rfl w hw
        · simp [he] at hw
          rcases hw with rfl | hw
          · constructor
            · simpa [List.isEmpty_iff] using he
            · simpa using hcur
          · exact ih [] rfl w hw
      · simp only [hc, if_false] at hw
        refine ih (c :: cur) ?_ w hw
        simp [hcur, hc]

theorem joinSp_ne_nil {w : List Char} {ws : List (List Char)} (h : w ≠ []) :
    joinSp (w :: ws) ≠ [] := by
  cases ws with
  | nil => simpa [joinSp] using h
  | cons w2 ws2 =>
      simp only [joinSp]
      intro hcon
      exact h (List.append_eq_nil.mp hcon).1

theorem lastNonWs_joinSp (ws : List (List Char))
    (h : ∀ w ∈ ws, w ≠ [] ∧ w.all (fun c => !isWs c) = true) :
    lastNonWs (joinSp ws) := by
  induction ws with
  | nil => exact lastNonWs_nil
  | cons w rest ih =>
      cases rest with
      | nil =>
          have hw := h w (by simp)
          unfold lastNonWs
          rcases hlast : (joinSp [w]).getLast? with _ | c
          · trivial
          · simp only [joinSp] at hlast
            have hc : c ∈ w := List.mem_of_mem_getLast? hlast
            have := List.all_eq_true.mp hw.2 c hc
            simpa using this
      | cons w2 rest2 =>
          have hne : joinSp (w2 :: rest2) ≠ [] :=
            joinSp_ne_nil (h w2 (by simp)).1
          have hih : lastNonWs (joinSp (w2 :: rest2)) := by
            refine ih ?_
            intro x hx
            exact h x (by simp [hx])
          unfold lastNonWs
          have hsplit : joinSp (w :: w2 :: rest2) = w ++ ' ' :: joinSp (w2 :: rest2) := by
            simp [joinSp]
          rw [hsplit, List.getLast?_append_of_ne_nil w (by simp)]
          have : (' ' :: joinSp (w2 :: rest2)).getLast? = (joinSp (w2 :: rest2)).getLast? := by
            have h2 : ' ' :: joinSp (w2 :: rest2) = [' '] ++ joinSp (w2 :: rest2) := rfl
            rw [h2, List.getLast?_append_of_ne_nil [' '] hne]
          rw [this]
          unfold lastNonWs at hih
          exact hih

theorem lastNonWs_normSpace (l : List Char) : lastNonWs (normSpace l) :=
  lastNonWs_joinSp _ (splitWsAux_words l [] rfl)

theorem getLast?_of_suffix {s l : List Char} (h : s <:+ l) (hs : s ≠ []) :
    s.getLast? = l.getLast? := by
  obtain ⟨t, rfl⟩ := h
  exact (List.getLast?_append_of_ne_nil t hs).symm

theorem lastNonWs_of_suffix {s l : List Char} (h : s <:+ l) (hl : lastNonWs l) :
    lastNonWs s := by
  rcases hs : s with _ | ⟨c, cs⟩
  · exact lastNonWs_nil
  · subst hs
    unfold lastNonWs at *
    rw [getLast?_of_suffix h (by simp)]
    exact hl

theorem endsOneSpace_of_toList {s : String} {t : List Char}
    (hst : s.toList = t ++ [' ']) (h : lastNonWs t) :
    ProcPdfs.endsOneSpace s = true := by
  unfold ProcPdfs.endsOneSpace
  rw [hst, List.reverse_append]
  simp only [List.reverse_singleton, List.singleton_append]
  rcases hr : t.reverse with _ | ⟨d, ds⟩
  · simp
  · have heq : t.getLast? = some d := by
      rw [← List.head?_reverse, hr]; rfl
    unfold lastNonWs at h
    rw [heq] at h
    have hd : d ≠ ' ' := by
      intro hcon
      subst hcon
      simp [isWs] at h
    simp [hd]

theorem dedupAux_pairwise (m : Nat) :
    ∀ (l : List Main7.Heading) (seen : List (List Char)) (counts : List (String × Nat)),
      List.Pairwise (fun a b : Main7.OutEntry => Main7.dedupKey a.text ≠ Main7.dedupKey b.text)
        (Main7.dedupAux m seen counts l)
      ∧ ∀ e ∈ Main7.dedupAux m seen counts l, Main7.dedupKey e.text ∉ seen := by
  intro l
  induction l with
  | nil =>
      intro seen counts
      constructor
      · simp [Main7.dedupAux]
      · intro e he; simp [Main7.dedupAux] at he
  | cons h rest ih =>
      intro seen counts
      unfold Main7.dedupAux
      by_cases h1 : Main7.dedupKey h.text ∈ seen
      · rw [if_pos h1]; exact ih seen counts
      · rw [if_neg h1]
        by_cases h2 : m ≤ Main7.getCount counts h.level
        · rw [if_pos h2]; exact ih seen counts
        · rw [if_neg h2]
          obtain ⟨ihp, ihm⟩ := ih (Main7.dedupKey h.text :: seen) (Main7.incCount counts h.level)
          constructor
          · refine List.Pairwise.cons ?_ ihp
            intro b hb hEq
            exact (ihm b hb) (by rw [← hEq]; exact List.mem_cons_self _ _)
          · intro e he
            rcases List.mem_cons.mp he with rfl | he
            · exact h1
            · intro hc
              exact (ihm e he) (List.mem_cons_of_mem _ hc)

theorem mem_firstUniq {α : Type} [DecidableEq α] :
    ∀ (l seen : List α) (x : α), x ∈ firstUniq seen l ↔ (x ∈ l ∧ x ∉ seen) := by
  intro l
  induction l with
  | nil => simp [firstUniq]
  | cons a as ih =>
      intro seen x
      unfold firstUniq
      by_cases ha : a ∈ seen
      · rw [if_pos ha, ih]
        constructor
        · rintro ⟨hx, hn⟩
          exact ⟨List.mem_cons_of_mem _ hx, hn⟩
        · rintro ⟨hx, hn⟩
          rcases List.mem_cons.mp hx with rfl | hx
          · exact absurd ha hn
          · exact ⟨hx, hn⟩
      · rw [if_neg ha]
        constructor
        · intro hx
          rcases List.mem_cons.mp hx with rfl | hx
          · exact ⟨List.mem_cons_self _ _, ha⟩
          · obtain ⟨hx1, hx2⟩ := (ih _ _).mp hx
            exact ⟨List.mem_cons_of_mem _ hx1,
              fun hc => hx2 (List.mem_cons_of_mem _ hc)⟩
        · rintro ⟨hx, hn⟩
          rcases List.mem_cons.mp hx with rfl | hx
          · exact List.mem_cons_self _ _
          · by_cases hxa : x = a
            · subst hxa; exact List.mem_cons_self _ _
            · refine List.mem_cons_of_mem _ ((ih _ _).mpr ⟨hx, ?_⟩)
              intro hc
              rcases List.mem_cons.mp hc with hcc | hcc
              · exact hxa hcc
              · exact hn hcc

theorem nodup_firstUniq {α : Type} [DecidableEq α] :
    ∀ (l seen : List α), (firstUniq seen l).Nodup := by
  intro l
  induction l with
  | nil => intro seen; simp [firstUniq]
  | cons a as ih =>
      intro seen
      unfold firstUniq
      by_cases ha : a ∈ seen
      · rw [if_pos ha]; exact ih seen
      · rw [if_neg ha]
        refine List.Nodup.cons ?_ (ih _)
        intro hmem
        exact ((mem_firstUniq _ _ _).mp hmem).2 (List.mem_cons_self _ _)

theorem levelIdxNum_mono {i j : Nat} (h : i ≤ j) :
    Main2.levelIdxNum i ≤ Main2.levelIdxNum j := by
  unfold Main2.levelIdxNum
  split_ifs <;> omega

theorem idxOf_lt_length {α : Type} [DecidableEq α] {x : α} :
    ∀ {l : List α}, x ∈ l → idxOf x l < l.length := by
  intro l
  induction l with
  | nil => intro h; simp at h
  | cons a as ih =>
      intro h
      unfold idxOf
      by_cases hax : a = x
      · rw [if_pos hax]; simp
      · rw [if_neg hax]
        have : x ∈ as := by
          rcases List.mem_cons.mp h with rfl | hm
          · exact absurd rfl hax
          · exact hm
        simpa using ih this

theorem get_idxOf {α : Type} [DecidableEq α] {x : α} :
    ∀ {l : List α} (hmem : x ∈ l), l.get ⟨idxOf x l, idxOf_lt_length hmem⟩ = x := by
  intro l
  induction l with
  | nil => intro h; simp at h
  | cons a as ih =>
      intro h
      by_cases hax : a = x
      · simp [idxOf, hax]
      · have hm : x ∈ as := by
          rcases List.mem_cons.mp h with rfl | hmm
          · exact absurd rfl hax
          · exact hmm
        have := ih hm
        simp only [idxOf, hax, if_false]
        simpa using this

theorem sorted_idxOf_lt {spans : List Main2.Span} {A B : Main2.StyleKey}
    (hA : A ∈ Main2.styleKeys spans) (hB : B ∈ Main2.styleKeys spans)
    (hlt : B.1 < A.1) :
    idxOf A (Main2.sortedStyles spans) < idxOf B (Main2.sortedStyles spans) := by
  have hperm := List.perm_insertionSort Main2.styleRel (Main2.styleKeys spans)
  have hsorted : List.Sorted Main2.styleRel (Main2.sortedStyles spans) :=
    List.sorted_insertionSort _ _
  have hA2 : A ∈ Main2.sortedStyles spans := hperm.mem_iff.mpr hA
  have hB2 : B ∈ Main2.sortedStyles spans := hperm.mem_iff.mpr hB
  have hgetA := get_idxOf hA2
  have hgetB := get_idxOf hB2
  rcases lt_trichotomy (idxOf A (Main2.sortedStyles spans))
      (idxOf B (Main2.sortedStyles spans)) with h | h | h
  · exact h
  · exfalso
    have hAB : A = B := by
      rw [← hgetA, ← hgetB]
      congr 1
      exact Fin.ext h
    rw [hAB] at hlt
    exact lt_irrefl _ hlt
  · exfalso
    have hrel := hsorted.rel_get_of_lt
      (a := ⟨_, idxOf_lt_length hB2⟩) (b := ⟨_, idxOf_lt_length hA2⟩)
      (by simpa using h)
    rw [hgetA, hgetB] at hrel
    unfold Main2.styleRel at hrel
    rcases hrel with h2 | ⟨h2, _⟩
    · exact lt_asymm hlt h2
    · rw [h2] at hlt
      exact lt_irrefl _ hlt

theorem matchN3_matchN2 {l : List Char} (h : Main7.matchN3 l = true) :
    Main7.matchN2 l = true := by
  unfold Main7.matchN3 at h
  unfold Main7.matchN2
  rcases h1 : eatD1 l with _ | r1
  · simp [h1] at h
  · simp only [h1, Option.bind_eq_bind, Option.some_bind] at h ⊢
    rcases h2 : eatC '.' r1 with _ | r2
    · simp [h2] at h
    · simp only [h2, Option.some_bind] at h ⊢
      rcases h3 : eatD1 r2 with _ | r3
      · simp [h3] at h
      · simp [h3]

/-! Claim theorems. -/

/-- C1: for every heading candidate whose text begins with a
numbered-section prefix, the numbering depth alone determines the level
assigned by determine_heading_level (a depth-one prefix yields H1,
depth two yields H2, depth three yields H3, before any font-size rule);
and on the two-span input Chapter 1 (size 20, bold) and 1.1 Background
(size 16, bold) on the same page, the pipeline emits exactly the two
entries H1 then H2 in that page order. -/
theorem c1_numbering_depth_determines_level :
    (∀ (t : String) (sz : Frac) (st : Main7.DocStats),
      Main7.matchN3 t.toList = true →
      Main7.determineHeadingLevel t sz st = "H3")
    ∧ (∀ (t : String) (sz : Frac) (st : Main7.DocStats),
      Main7.matchN2 t.toList = true → Main7.matchN3 t.toList = false →
      Main7.determineHeadingLevel t sz st = "H2")
    ∧ (∀ (t : String) (sz : Frac) (st : Main7.DocStats),
      Main7.matchN1 t.toList = true → Main7.matchN2 t.toList = false →
      Main7.determineHeadingLevel t sz st = "H1")
    ∧ (Main7.processDocument
        [⟨"Chapter 1", Frac.ofInt 20, "helvetica-bold", 0, true, Frac.ofInt 0⟩,
         ⟨"1.1 Background", Frac.ofInt 16, "helvetica-bold", 0, true, Frac.ofInt 0⟩]).outline =
      [⟨"H1", "Chapter 1", 0⟩, ⟨"H2", "1.1 Background", 0⟩] := by
  refine ⟨?_, ?_, ?_, by decide⟩
  · intro t sz st h
    simp only [String.toList] at h
    unfold Main7.determineHeadingLevel
    simp [h]
  · intro t sz st h2 h3
    simp only [String.toList] at h2 h3
    unfold Main7.determineHeadingLevel
    simp [h2, h3]
  · intro t sz st h1 h2
    have h3 : Main7.matchN3 t.toList = false := by
      rcases hc : Main7.matchN3 t.toList with _ | _
      · rfl
      · rw [matchN3_matchN2 hc] at h2; cases h2
    simp only [String.toList] at h1 h2 h3
    unfold Main7.determineHeadingLevel
    simp [h1, h2, h3]

/-- Witness for C1: the depth-two prefix of 1.1 Background yields H2 at a
concrete size and statistics record. -/
theorem c1_witness :
    Main7.determineHeadingLevel "1.1 Background" (Frac.ofInt 16)
      ⟨Frac.ofInt 20, Frac.ofInt 22⟩ = "H2" :=
  c1_numbering_depth_determines_level.2.1 "1.1 Background" (Frac.ofInt 16)
    ⟨Frac.ofInt 20, Frac.ofInt 22⟩ (by decide) (by decide)

/-- C2: in the style clusterer of main2.py, if style A has a strictly
larger rounded font size than style B with the other style component
(boldness) equal, then the heading level assigned to A's candidates is
numerically at most the level assigned to B's candidates. -/
theorem c2_style_size_monotone :
    ∀ (spans : List Main2.Span) (s1 s2 : Main2.Span),
      s1 ∈ spans → s2 ∈ spans →
      (Main2.styleKeyOf s2).1 < (Main2.styleKeyOf s1).1 →
      (Main2.styleKeyOf s1).2 = (Main2.styleKeyOf s2).2 →
      Main2.levelNumOf spans (Main2.styleKeyOf s1) ≤
        Main2.levelNumOf spans (Main2.styleKeyOf s2) := by
  intro spans s1 s2 h1 h2 hlt _
  have hA : Main2.styleKeyOf s1 ∈ Main2.styleKeys spans := by
    unfold Main2.styleKeys
    exact (mem_firstUniq _ _ _).mpr ⟨List.mem_map_of_mem _ h1, by simp⟩
  have hB : Main2.styleKeyOf s2 ∈ Main2.styleKeys spans := by
    unfold Main2.styleKeys
    exact (mem_firstUniq _ _ _).mpr ⟨List.mem_map_of_mem _ h2, by simp⟩
  have hidx := sorted_idxOf_lt hA hB hlt
  unfold Main2.levelNumOf
  exact levelIdxNum_mono (le_of_lt hidx)

/-- Witness for C2 at two concrete spans of sizes 20 and 14, both bold. -/
theorem c2_witness :
    Main2.levelNumOf
      [⟨"A", Frac.ofInt 20, "F", 16, 1, (Frac.ofInt 0, Frac.ofInt 0, Frac.ofInt 0, Frac.ofInt 0)⟩,
       ⟨"B", Frac.ofInt 14, "F", 16, 1, (Frac.ofInt 0, Frac.ofInt 0, Frac.ofInt 0, Frac.ofInt 0)⟩]
      (Main2.styleKeyOf ⟨"A", Frac.ofInt 20, "F", 16, 1,
        (Frac.ofInt 0, Frac.ofInt 0, Frac.ofInt 0, Frac.ofInt 0)⟩) ≤
    Main2.levelNumOf
      [⟨"A", Frac.ofInt 20, "F", 16, 1, (Frac.ofInt 0, Frac.ofInt 0, Frac.ofInt 0, Frac.ofInt 0)⟩,
       ⟨"B", Frac.ofInt 14, "F", 16, 1, (Frac.ofInt 0, Frac.ofInt 0, Frac.ofInt 0, Frac.ofInt 0)⟩]
      (Main2.styleKeyOf ⟨"B", Frac.ofInt 14, "F", 16, 1,
        (Frac.ofInt 0, Frac.ofInt 0, Frac.ofInt 0, Frac.ofInt 0)⟩) :=
  c2_style_size_monotone _ _ _ (by decide) (by decide) (by decide) (by decide)

/-- C5: with zero usable spans, process_document returns the degraded
success record with the fixed title Document and an empty outline. -/
theorem c5_zero_spans_degraded :
    Main7.processDocument [] = ⟨"Document", []⟩ := by
  decide

/-- C3 (amended): the main7 deduplication emits no two entries with the
same case-normalized text at all (so in particular no two entries share a
case-normalized (text, page) pair), and the Overview example collapses to
a single H3 entry; (the process_pdfs variant deduplicates by exact
(stripped text, page), see the counterexample). -/
theorem c3_main7_dedup_unique :
    (∀ (hs : List Main7.Heading),
      List.Pairwise
        (fun a b : Main7.OutEntry => Main7.dedupKey a.text ≠ Main7.dedupKey b.text)
        (Main7.deduplicateAndLimit hs))
    ∧ (Main7.processDocument
        [⟨"Overview", Frac.ofInt 12, "helvetica", 2, false, Frac.ofInt 0⟩,
         ⟨"overview", Frac.ofInt 12, "helvetica", 2, false, Frac.ofInt 0⟩]).outline =
      [⟨"H3", "Overview", 2⟩] := by
  constructor
  · intro hs
    unfold Main7.deduplicateAndLimit
    exact (dedupAux_pairwise 15 _ [] []).1
  · decide

/-- Counterexample for C3: in process_pdfs, the bold fragments Overview
and overview on the same page survive deduplication together, so two
emitted entries share a case-normalized (text, page) pair. -/
theorem c3_counterexample :
    ¬ List.Pairwise
      (fun a b : ProcPdfs.Heading =>
        ¬(lowers (stripWs a.text.toList) = lowers (stripWs b.text.toList) ∧
          a.page = b.page))
      (ProcPdfs.processPdf [] [⟨"**Overview**\n**overview**", []⟩] "" [] []).outline := by
  decide

/-- C4 (amended): the outline emitted by assign_heading_levels always has
non-decreasing page values (its final sort uses the page as its only
key); ordering within a page is style-group order, not vertical position
(see the counterexample). -/
theorem c4_pages_monotone :
    ∀ (groups : List (MainPy.FontKey × List MainPy.Span)),
      List.Pairwise (fun a b : MainPy.OutEntry => a.page ≤ b.page)
        (MainPy.assignHeadingLevels groups) := by
  intro groups
  unfold MainPy.assignHeadingLevels
  exact List.sorted_insertionSort MainPy.pageRel _

/-- Counterexample for C4: on two same-page candidates where the H1 style
sits lower on the page (y 500) than the H2 style (y 100), the emitted
order is H1 then H2, which is not ascending in vertical position within
the page. -/
theorem c4_counterexample :
    MainPy.chainByPageY c4spans (MainPy.classifyFrom c4spans) = false := by
  decide

/-- The metadata-free fallback tail of main.py extract_title never
returns the empty string when the outline texts are nonempty. -/
theorem extractTitleNoMeta_ne {hs : List MainPy.OutEntry}
    (hne : ∀ h ∈ hs, h.text ≠ "") :
    MainPy.extractTitle.extractTitleNoMeta hs ≠ "" := by
  unfold MainPy.extractTitle.extractTitleNoMeta
  rcases hfind : hs.find? (fun h => h.level == "H1") with _ | h
  · rw [hfind]
    rcases hs with _ | ⟨h0, rest⟩
    · simp
    · simpa using hne h0 (List.mem_cons_self _ _)
  · rw [hfind]
    simpa using hne h (List.mem_of_find?_eq_some hfind)

/-- C6 (amended): main.py's extract_title returns a nonempty title for
every metadata value and every outline whose entry texts are nonempty
(which its span filter guarantees); the process_pdfs variant violates the
original claim (see the counterexample). -/
theorem c6_mainpy_title_nonempty :
    ∀ (mt : Option String) (hs : List MainPy.OutEntry),
      (∀ h ∈ hs, h.text ≠ "") →
      MainPy.extractTitle mt hs ≠ "" := by
  intro mt hs hne
  unfold MainPy.extractTitle
  rcases mt with _ | t
  · exact extractTitleNoMeta_ne hne
  · dsimp only
    by_cases he : (stripWs t.toList).isEmpty
    · rw [if_pos he]
      exact extractTitleNoMeta_ne hne
    · rw [if_neg he]
      intro hcon
      have hdata : stripWs t.toList = [] := congrArg String.data hcon
      rw [hdata] at he
      exact he rfl

/-- Witness for C6: a concrete outline with one nonempty H1 text. -/
theorem c6_witness :
    MainPy.extractTitle none [⟨"H1", "Title", 1⟩] ≠ "" :=
  c6_mainpy_title_nonempty none [⟨"H1", "Title", 1⟩] (by decide)

/-- Counterexample for C6: on a document with no TOC, no pages, no
metadata and no first-page lines, process_pdf returns the empty string as
the title. -/
theorem c6_counterexample :
    (ProcPdfs.processPdf [] [] "" [] []).title = "" := by
  decide

/-- C8 (amended): is_potential_heading excludes outright every fragment
positioned inside the top or bottom tenth of the page height,
independently of any other signal.  (The original claim inverts the
direction: fragments away from the bands are not excluded by position,
see the counterexample.) -/
theorem c8_margin_band_exclusion :
    ∀ (s : Main2.Span) (ph : Frac),
      (Frac.blt s.bbox.2.1 (Frac.mul ph ⟨1, 10⟩) = true ∨
        Frac.blt (Frac.mul ph ⟨9, 10⟩) s.bbox.2.2.2 = true) →
      Main2.isPotentialHeading s ph = false := by
  intro s ph h
  simp only [Main2.isPotentialHeading]
  split_ifs with h1 h2 h3 h4
  any_goals rfl
  exfalso
  rcases h with h | h
  · exact h3 (by simp [h])
  · exact h3 (by simp [h])

/-- Witness for C8: a concrete fragment with its top edge inside the top
tenth of an 800-unit page is excluded. -/
theorem c8_witness :
    Main2.isPotentialHeading
      ⟨"Any Heading", Frac.ofInt 14, "F", 0, 1,
        (Frac.ofInt 0, Frac.ofInt 10, Frac.ofInt 10, Frac.ofInt 20)⟩
      (Frac.ofInt 800) = false :=
  c8_margin_band_exclusion _ _ (Or.inl (by decide))

/-- Counterexample for C8 as stated: a fragment positioned away from both
margin bands (y from 400 to 410 on an 800-unit page) is accepted, not
excluded. -/
theorem c8_counterexample :
    Main2.isPotentialHeading
      ⟨"Heading One", Frac.ofInt 14, "Helv", 0, 1,
        (Frac.ofInt 0, Frac.ofInt 400, Frac.ofInt 10, Frac.ofInt 410)⟩
      (Frac.ofInt 800) = true
    ∧ Frac.blt (Frac.ofInt 400) (Frac.mul (Frac.ofInt 800) ⟨1, 10⟩) = false
    ∧ Frac.blt (Frac.mul (Frac.ofInt 800) ⟨9, 10⟩) (Frac.ofInt 410) = false := by
  decide

theorem sugLevel_mem (c : Frac) :
    (if Frac.blt ⟨7, 10⟩ c then "H2"
     else if Frac.blt ⟨9, 10⟩ c then "H1" else "H3") ∈
      (["H1", "H2", "H3"] : List String) := by
  split_ifs <;> simp

theorem isLikelyHeading_level_mem (t : String) (c : Option ProcPdfs.Context) :
    (ProcPdfs.isLikelyHeading t c).2.2 ∈ (["H1", "H2", "H3"] : List String) := by
  unfold ProcPdfs.isLikelyHeading
  by_cases h0 : (t == "" || decide ((stripWs t.toList).length < 2)) = true
  · rw [if_pos h0]; simp
  · rw [if_neg h0]
    dsimp only
    exact sugLevel_mem _

theorem parseMdHash_pos {l : List Char} {kr : Nat × List Char}
    (h : ProcPdfs.parseMdHash l = some kr) : 1 ≤ kr.1 := by
  unfold ProcPdfs.parseMdHash at h
  dsimp only [runSplit] at h
  by_cases he : (l.takeWhile (fun c => c == '#')).isEmpty
  · rw [if_pos he] at h; cases h
  · rw [if_neg he] at h
    rcases hw : eatWs1 (l.dropWhile (fun c => c == '#')) with _ | rest
    · rw [hw] at h; cases h
    · rw [hw] at h
      injection h with h2
      subst h2
      have : (l.takeWhile (fun c => c == '#')) ≠ [] := by
        simpa [List.isEmpty_iff] using he
      have := List.length_pos.mpr this
      simpa using this

theorem extractMarkdownHeadings_level {md : String} {p : Int} {e : ProcPdfs.Heading}
    (he : e ∈ ProcPdfs.extractMarkdownHeadings md p) :
    e.level ∈ (["H1", "H2", "H3", "H4", "H5", "H6"] : List String) := by
  unfold ProcPdfs.extractMarkdownHeadings at he
  rw [List.mem_filterMap] at he
  obtain ⟨line, _, hline⟩ := he
  rcases hp : ProcPdfs.parseMdHash (stripWs line) with _ | kr
  · rw [hp] at hline; cases hline
  · rw [hp] at hline
    dsimp only at hline
    split at hline
    · cases hline
    · injection hline with h2
      subst h2
      have h1 : 1 ≤ min kr.1 6 := le_min (parseMdHash_pos hp) (by omega)
      have h6 : min kr.1 6 ≤ 6 := min_le_right _ _
      set m := min kr.1 6 with hm
      interval_cases m <;> (dsimp only; decide)

theorem mem_dedupHAux {e : ProcPdfs.Heading} :
    ∀ {l : List ProcPdfs.Heading} {seen : List (List Char × Int)},
      e ∈ ProcPdfs.dedupHAux seen l → e ∈ l := by
  intro l
  induction l with
  | nil => intro seen h; simp [ProcPdfs.dedupHAux] at h
  | cons a as ih =>
      intro seen h
      unfold ProcPdfs.dedupHAux at h
      by_cases hk : (stripWs a.text.toList, a.page) ∈ seen
      · rw [if_pos hk] at h
        exact List.mem_cons_of_mem _ (ih h)
      · rw [if_neg hk] at h
        rcases List.mem_cons.mp h with rfl | h2
        · exact List.mem_cons_self _ _
        · exact List.mem_cons_of_mem _ (ih h2)

theorem extractBoldHeadings_level {md : String} {p : Int} {e : ProcPdfs.Heading}
    (he : e ∈ ProcPdfs.extractBoldHeadings md p) :
    e.level ∈ (["H1", "H2", "H3"] : List String) := by
  unfold ProcPdfs.extractBoldHeadings at he
  rw [List.mem_flatten] at he
  obtain ⟨l, hl, hel⟩ := he
  rw [List.mem_map] at hl
  obtain ⟨line, _, rfl⟩ := hl
  by_cases hh : ProcPdfs.isMdHeaderLine (stripWs line) = true
  · simp [hh] at hel
  · rw [if_neg hh] at hel
    rw [List.mem_filterMap] at hel
    obtain ⟨b, _, hg⟩ := hel
    dsimp only at hg
    repeat' split at hg
    all_goals try exact Option.noConfusion hg
    all_goals rw [Option.some.injEq] at hg
    all_goals subst hg
    all_goals apply isLikelyHeading_level_mem

theorem extractPdfStructureHeadings_level {pg : ProcPdfs.PdfPage} {p : Int}
    {e : ProcPdfs.Heading}
    (he : e ∈ ProcPdfs.extractPdfStructureHeadings pg p) :
    e.level ∈ (["H1", "H2", "H3"] : List String) := by
  unfold ProcPdfs.extractPdfStructureHeadings at he
  rw [List.mem_filterMap] at he
  obtain ⟨line, _, hg⟩ := he
  dsimp only at hg
  repeat' split at hg
  all_goals try exact Option.noConfusion hg
  all_goals rw [Option.some.injEq] at hg
  all_goals subst hg
  all_goals apply isLikelyHeading_level_mem

theorem mem_nonTocOutline {pages : List ProcPdfs.PageData} {e : ProcPdfs.Heading}
    (he : e ∈ ProcPdfs.nonTocOutline pages) :
    e ∈ ProcPdfs.mdFlat pages ∨ e ∈ ProcPdfs.boldFlat pages := by
  unfold ProcPdfs.nonTocOutline at he
  split at he
  · exact Or.inl he
  · refine Or.inr ?_
    have he2 := (List.perm_insertionSort ProcPdfs.procRel _).mem_iff.mp he
    exact mem_dedupHAux he2

theorem trailFix_level (h : ProcPdfs.Heading) :
    (ProcPdfs.trailFix h).level = h.level := by
  unfold ProcPdfs.trailFix
  split <;> rfl

theorem mem_mdFlat_level {pages : List ProcPdfs.PageData} {e : ProcPdfs.Heading}
    (he : e ∈ ProcPdfs.mdFlat pages) :
    e.level ∈ (["H1", "H2", "H3", "H4", "H5", "H6"] : List String) := by
  unfold ProcPdfs.mdFlat at he
  rw [List.mem_flatten] at he
  obtain ⟨l, hl, hel⟩ := he
  rw [List.mem_map] at hl
  obtain ⟨ip, _, rfl⟩ := hl
  exact extractMarkdownHeadings_level hel

theorem mem_boldFlat_level {pages : List ProcPdfs.PageData} {e : ProcPdfs.Heading}
    (he : e ∈ ProcPdfs.boldFlat pages) :
    e.level ∈ (["H1", "H2", "H3"] : List String) := by
  unfold ProcPdfs.boldFlat at he
  rw [List.mem_flatten] at he
  obtain ⟨l, hl, hel⟩ := he
  rw [List.mem_map] at hl
  obtain ⟨ip, _, rfl⟩ := hl
  rcases List.mem_append.mp hel with h | h
  · exact extractBoldHeadings_level h
  · exact extractPdfStructureHeadings_level h

/-- C9 (amended): whenever the built-in table of contents is not used
(at most two entries), every emitted outline entry's level is one of H1
through H6 (markdown levels are capped at six and scored levels are only
H1 to H3); the TOC branch emits the raw TOC depth uncapped, see the
counterexample. -/
theorem c9_nontoc_levels_bounded :
    ∀ (toc : List ProcPdfs.TocEntry) (pages : List ProcPdfs.PageData)
      (meta : String) (tl : List ProcPdfs.TLine) (ttl : List String),
      toc.length ≤ 2 →
      ∀ e ∈ (ProcPdfs.processPdf toc pages meta tl ttl).outline,
        e.level ∈ (["H1", "H2", "H3", "H4", "H5", "H6"] : List String) := by
  intro toc pages meta tl ttl htoc e he
  unfold ProcPdfs.processPdf at he
  rw [if_neg (by omega : ¬ 2 < toc.length)] at he
  dsimp only at he
  rw [List.mem_map] at he
  obtain ⟨h0, h0mem, rfl⟩ := he
  rw [trailFix_level]
  rcases mem_nonTocOutline h0mem with h | h
  · exact mem_mdFlat_level h
  · have := mem_boldFlat_level h
    simp only [List.mem_cons] at this ⊢
    tauto

/-- Witness for C9: on a single markdown page the emitted entry carries
level H1, inside the allowed set. -/
theorem c9_witness :
    (⟨"H1", "Introduction ", 0⟩ : ProcPdfs.Heading).level ∈
      (["H1", "H2", "H3", "H4", "H5", "H6"] : List String) :=
  c9_nontoc_levels_bounded [] [⟨"# Introduction\nbody text here", []⟩] "" [] []
    (by decide) ⟨"H1", "Introduction ", 0⟩ (by decide)

/-- Counterexample for C9: a built-in table of contents nesting to depth
seven produces an entry with level H7, outside H1 through H6. -/
theorem c9_counterexample :
    "H7" ∈ ((ProcPdfs.processPdf
        [⟨1, "Intro", 1⟩, ⟨2, "Sub", 2⟩, ⟨7, "Deep", 3⟩] [] "" [] []).outline.map
          (fun h => h.level))
    ∧ "H7" ∉ (["H1", "H2", "H3", "H4", "H5", "H6"] : List String) := by
  decide

theorem lastNonWs_cleanText (s : String) : lastNonWs (ProcPdfs.cleanText s).toList := by
  unfold ProcPdfs.cleanText
  exact lastNonWs_normSpace _

theorem extractMarkdownHeadings_text {md : String} {p : Int} {e : ProcPdfs.Heading}
    (he : e ∈ ProcPdfs.extractMarkdownHeadings md p) :
    lastNonWs e.text.toList := by
  unfold ProcPdfs.extractMarkdownHeadings at he
  rw [List.mem_filterMap] at he
  obtain ⟨line, _, hline⟩ := he
  rcases hp : ProcPdfs.parseMdHash (stripWs line) with _ | kr
  · rw [hp] at hline; cases hline
  · rw [hp] at hline
    dsimp only at hline
    split at hline
    · cases hline
    · rw [Option.some.injEq] at hline
      subst hline
      exact lastNonWs_cleanText _

theorem extractBoldHeadings_text {md : String} {p : Int} {e : ProcPdfs.Heading}
    (he : e ∈ ProcPdfs.extractBoldHeadings md p) :
    lastNonWs e.text.toList := by
  unfold ProcPdfs.extractBoldHeadings at he
  rw [List.mem_flatten] at he
  obtain ⟨l, hl, hel⟩ := he
  rw [List.mem_map] at hl
  obtain ⟨line, _, rfl⟩ := hl
  by_cases hh : ProcPdfs.isMdHeaderLine (stripWs line) = true
  · simp [hh] at hel
  · rw [if_neg hh] at hel
    rw [List.mem_filterMap] at hel
    obtain ⟨b, _, hg⟩ := hel
    dsimp only at hg
    repeat' split at hg
    all_goals try exact Option.noConfusion hg
    all_goals rw [Option.some.injEq] at hg
    all_goals subst hg
    all_goals apply lastNonWs_cleanText

theorem extractPdfStructureHeadings_text {pg : ProcPdfs.PdfPage} {p : Int}
    {e : ProcPdfs.Heading}
    (he : e ∈ ProcPdfs.extractPdfStructureHeadings pg p) :
    lastNonWs e.text.toList := by
  unfold ProcPdfs.extractPdfStructureHeadings at he
  rw [List.mem_filterMap] at he
  obtain ⟨line, _, hg⟩ := he
  dsimp only at hg
  repeat' split at hg
  all_goals try exact Option.noConfusion hg
  all_goals rw [Option.some.injEq] at hg
  all_goals subst hg
  all_goals apply lastNonWs_cleanText

theorem mem_nonTocOutline_text {pages : List ProcPdfs.PageData} {e : ProcPdfs.Heading}
    (he : e ∈ ProcPdfs.nonTocOutline pages) :
    lastNonWs e.text.toList := by
  rcases mem_nonTocOutline he with h | h
  · unfold ProcPdfs.mdFlat at h
    rw [List.mem_flatten] at h
    obtain ⟨l, hl, hel⟩ := h
    rw [List.mem_map] at hl
    obtain ⟨ip, _, rfl⟩ := hl
    exact extractMarkdownHeadings_text hel
  · unfold ProcPdfs.boldFlat at h
    rw [List.mem_flatten] at h
    obtain ⟨l, hl, hel⟩ := h
    rw [List.mem_map] at hl
    obtain ⟨ip, _, rfl⟩ := hl
    rcases List.mem_append.mp hel with h2 | h2
    · exact extractBoldHeadings_text h2
    · exact extractPdfStructureHeadings_text h2

theorem endsOneSpace_trailFix {h : ProcPdfs.Heading} (hl : lastNonWs h.text.toList) :
    ProcPdfs.endsOneSpace (ProcPdfs.trailFix h).text = true := by
  unfold ProcPdfs.trailFix
  by_cases hs : ProcPdfs.sEndsWith h.text " " = true
  · exfalso
    unfold ProcPdfs.sEndsWith at hs
    have hsuf : [' '] <:+ h.text.toList := by
      have : (" ".toList : List Char) = [' '] := rfl
      rw [this] at hs
      exact List.isSuffixOf_iff_suffix.mp hs
    have hlast : h.text.toList.getLast? = some ' ' := by
      rw [← getLast?_of_suffix hsuf (by simp)]
      rfl
    unfold lastNonWs at hl
    rw [hlast] at hl
    simp [isWs] at hl
  · rw [if_neg hs]
    refine endsOneSpace_of_toList (t := h.text.toList) ?_ hl
    rfl

theorem tocHeading_endsOneSpace (t : ProcPdfs.TocEntry) :
    ProcPdfs.endsOneSpace (ProcPdfs.tocHeading t).text = true := by
  refine endsOneSpace_of_toList
    (t := ProcPdfs.dropNumPref (ProcPdfs.cleanText t.title).toList) rfl ?_
  exact lastNonWs_of_suffix (List.drop_suffix _ _) (lastNonWs_cleanText _)

theorem titleFormat_endsOneSpace (t2 : String)
    (h : (if (t2 != "") = true then String.mk (stripWs t2.toList) ++ " " else "") ≠ "") :
    ProcPdfs.endsOneSpace
      (if (t2 != "") = true then String.mk (stripWs t2.toList) ++ " " else "") = true := by
  by_cases hc : (t2 != "") = true
  · rw [if_pos hc]
    exact endsOneSpace_of_toList (t := stripWs t2.toList) rfl (lastNonWs_stripWs _)
  · rw [if_neg hc] at h
    exact absurd rfl h

/-- C10: in the process_pdfs variant, every emitted outline entry's text
ends with exactly one trailing space character, and the emitted title,
whenever nonempty, also ends with exactly one trailing space. -/
theorem c10_trailing_space :
    ∀ (toc : List ProcPdfs.TocEntry) (pages : List ProcPdfs.PageData)
      (meta : String) (tl : List ProcPdfs.TLine) (ttl : List String),
      (∀ e ∈ (ProcPdfs.processPdf toc pages meta tl ttl).outline,
        ProcPdfs.endsOneSpace e.text = true)
      ∧ ((ProcPdfs.processPdf toc pages meta tl ttl).title ≠ "" →
        ProcPdfs.endsOneSpace (ProcPdfs.processPdf toc pages meta tl ttl).title = true) := by
  intro toc pages meta tl ttl
  constructor
  · intro e he
    unfold ProcPdfs.processPdf at he
    dsimp only at he
    split at he
    · rw [List.mem_map] at he
      obtain ⟨t0, _, rfl⟩ := he
      exact tocHeading_endsOneSpace t0
    · rw [List.mem_map] at he
      obtain ⟨h0, h0mem, rfl⟩ := he
      exact endsOneSpace_trailFix (mem_nonTocOutline_text h0mem)
  · intro hne
    unfold ProcPdfs.processPdf at hne ⊢
    dsimp only at hne ⊢
    exact titleFormat_endsOneSpace _ hne

theorem stepMeta_some {meta t : String} (h : ProcPdfs.stepMeta meta = some t) :
    5 < (ProcPdfs.cleanText meta).length ∧ t = ProcPdfs.cleanText meta := by
  unfold ProcPdfs.stepMeta at h
  split at h
  · next hc =>
      rw [Option.some.injEq] at h
      rw [Bool.and_eq_true] at hc
      exact ⟨of_decide_eq_true hc.2, h.symm⟩
  · cases h

theorem stepProminent_some {lines : List ProcPdfs.TLine} {t : String}
    (h : ProcPdfs.stepProminent lines = some t) :
    4 < t.length ∧ wordCount t < 20 := by
  unfold ProcPdfs.stepProminent at h
  rcases hsort : List.insertionSort ProcPdfs.tlineRel lines with _ | ⟨l, rest⟩
  · rw [hsort] at h; cases h
  · rw [hsort] at h
    dsimp only at h
    split at h
    · next hc =>
        rw [Option.some.injEq] at h
        subst h
        rw [Bool.and_eq_true] at hc
        exact ⟨of_decide_eq_true hc.1, of_decide_eq_true hc.2⟩
    · cases h

theorem stepFirstLine_some {tls : List String} {t : String}
    (h : ProcPdfs.stepFirstLine tls = some t) :
    5 < t.length ∧ wordCount t < 20 := by
  unfold ProcPdfs.stepFirstLine at h
  obtain ⟨ln, _, hl⟩ := List.exists_of_findSome?_eq_some h
  dsimp only at hl
  split at hl
  · next hc =>
      rw [Option.some.injEq] at hl
      subst hl
      rw [Bool.and_eq_true] at hc
      exact ⟨of_decide_eq_true hc.1, of_decide_eq_true hc.2⟩
  · cases hl

theorem str_ne_of_lenpos {s : String} (h : 0 < s.length) : s ≠ "" := by
  intro hcon
  subst hcon
  exact absurd h (by decide)

theorem getBestTitle_chain (meta : String) (lines : List ProcPdfs.TLine)
    (textLines : List String) :
    ProcPdfs.getBestTitle meta lines textLines =
      (((ProcPdfs.stepMeta meta).orElse (fun _ => ProcPdfs.stepProminent lines)).orElse
        (fun _ => ProcPdfs.stepFirstLine textLines)).getD "" := by
  unfold ProcPdfs.getBestTitle ProcPdfs.stepMeta ProcPdfs.stepProminent
    ProcPdfs.stepFirstLine ProcPdfs.fallbackLine
  cases h1 : (meta != "" && decide (5 < (ProcPdfs.cleanText meta).length)) with
  | true => simp [h1, Option.orElse]
  | false =>
      simp only [h1, Bool.false_eq_true, if_false]
      rcases hsort : List.insertionSort ProcPdfs.tlineRel lines with _ | ⟨l, rest⟩
      · simp [Option.orElse]
      · dsimp only
        cases h2 : (decide (4 < (ProcPdfs.cleanText l.text).length) &&
            decide (wordCount (ProcPdfs.cleanText l.text) < 20)) with
        | true => simp [h2, Option.orElse]
        | false =>
            simp only [h2, Bool.false_eq_true, if_false]
            simp [Option.orElse]

/-- C7: the title resolver is the prioritized fallback chain of the
specification, first success wins: under the invariant that outline
texts are nonempty (which process_pdf guarantees), the resolved title
equals the first present value among the metadata step, the prominent
first-page fragment step, the first meaningful line step, the first H1
entry, the first entry of any level, and the empty fixed fallback;
moreover the metadata title is used only when its cleaned length exceeds
five, and the prominent fragment only when its word count is under
twenty. -/
theorem c7_title_fallback_chain :
    ∀ (meta : String) (lines : List ProcPdfs.TLine) (tls : List String)
      (outline : List ProcPdfs.Heading),
      (∀ h ∈ outline, h.text ≠ "") →
      ProcPdfs.resolvedTitle meta lines tls outline =
        ProcPdfs.titleChainSpec meta lines tls outline
      ∧ (∀ t, ProcPdfs.stepMeta meta = some t →
          5 < (ProcPdfs.cleanText meta).length)
      ∧ (∀ t, ProcPdfs.stepProminent lines = some t → wordCount t < 20) := by
  intro meta lines tls outline hout
  refine ⟨?_, fun t ht => (stepMeta_some ht).1, fun t ht => (stepProminent_some ht).2⟩
  unfold ProcPdfs.resolvedTitle ProcPdfs.titleChainSpec
  rw [getBestTitle_chain]
  rcases hm : ProcPdfs.stepMeta meta with _ | t1
  · rcases hp : ProcPdfs.stepProminent lines with _ | t2
    · rcases hf : ProcPdfs.stepFirstLine tls with _ | t3
      · simp only [hm, hp, hf, Option.orElse, Option.getD]
        rcases outline with _ | ⟨h0, rest⟩
        · simp [ProcPdfs.stepH1, ProcPdfs.stepAny]
        · simp only [List.isEmpty_cons, Bool.not_false, Bool.and_true, beq_self_eq_true,
            if_true]
          unfold ProcPdfs.stepH1 ProcPdfs.stepAny ProcPdfs.headTextOf
          rcases hfind : (h0 :: rest).find? (fun h => h.level == "H1") with _ | hh
          · simp [hfind]
          · have hne := hout hh (List.mem_of_find?_eq_some hfind)
            simp [hfind, hne]
      · have h3 := stepFirstLine_some hf
        have hne3 : t3 ≠ "" := str_ne_of_lenpos (by omega)
        simp [hm, hp, hf, Option.orElse, hne3]
    · have h2 := stepProminent_some hp
      have hne2 : t2 ≠ "" := str_ne_of_lenpos (by omega)
      simp [hm, hp, Option.orElse, hne2]
  · have h1 := stepMeta_some hm
    have hne1 : t1 ≠ "" := by
      rw [h1.2]
      exact str_ne_of_lenpos (by omega)
    simp [hm, Option.orElse, hne1]

/-- Witness for C7 at a concrete metadata title, exercising the
metadata-wins case and the word-count condition of the prominent step. -/
theorem c7_witness :
    ProcPdfs.resolvedTitle "A Real Document Title" [] [] [] =
      ProcPdfs.titleChainSpec "A Real Document Title" [] [] [] :=
  (c7_title_fallback_chain "A Real Document Title" [] [] [] (by simp)).1

/-- Witness for C10 on a concrete one-page markdown document with a
metadata title: the single outline entry and the title both end in
exactly one space. -/
theorem c10_witness :
    ProcPdfs.endsOneSpace "Introduction " = true
    ∧ ProcPdfs.endsOneSpace
        (ProcPdfs.processPdf [] [⟨"# Introduction\nbody text here", []⟩]
          "Some Meta Title" [] []).title = true :=
  ⟨(c10_trailing_space [] [⟨"# Introduction\nbody text here", []⟩]
      "Some Meta Title" [] []).1 ⟨"H1", "Introduction ", 0⟩ (by decide),
   (c10_trailing_space [] [⟨"# Introduction\nbody text here", []⟩]
      "Some Meta Title" [] []).2 (by decide)⟩

end PdfOut
